import Mathlib

/-!
Verification development for the padre-pump-backend service.

This file gives a shallow embedding of the persistence layer
(`src/db/queries.js`), the wallet-keyed ingestion pipeline
(`src/scanners/realtime.js`, `src/scanners/historical.js`,
`src/services/developer.js`) and the social-identity pipeline
(`src/services/creator-tracker.js`, `src/services/metadata-parser.js`,
`src/services/twitter-api.js`, `src/scanners/realtime-creator.js`).

Database tables are modelled as lists of rows; SQL upserts become pure
list transformations; the asynchronous loops become sequential folds, with
per-operation failure oracles standing in for thrown/caught exceptions.
Wall-clock bookkeeping columns (`first_seen_at`, `last_updated_at`,
`triggered_at`, `detected_at`) and console logging are not modelled.
-/

namespace Padre

/-- Coin record as returned by the upstream Pump.fun feed
(`{mint, symbol, name, creator, created_timestamp, complete, ...}`). -/
structure Coin where
  mint : String
  symbol : String
  name : Option String
  description : Option String
  image_uri : Option String
  creator : String
  created_timestamp : Int
  complete : Bool
  usd_market_cap : Option ℚ
  bonding_curve : Option String
  deriving DecidableEq

/-- Row of the `coins` table (schema.sql), wallet pipeline.  The raw upstream
record is kept verbatim in `metadata` (`JSON.stringify(coin)`). -/
structure CoinRow where
  mint : String
  symbol : String
  name : Option String
  description : Option String
  image_uri : Option String
  creator_address : String
  created_timestamp : Int
  is_migrated : Bool
  migrated_at : Option Int
  market_cap : Option ℚ
  bonding_curve : Option String
  metadata : Coin
  deriving DecidableEq

/-- Row of the `developers` table (schema.sql). -/
structure DevRow where
  address : String
  total_coins : Nat
  migration_count : Nat
  migration_rate : ℚ
  last_migrated_coin_symbol : Option String
  last_migrated_coin_mint : Option String
  last_migrated_timestamp : Option Int
  deriving DecidableEq

/-- Row of the `migrations` table (schema.sql). -/
structure MigRow where
  coin_mint : String
  developer_address : String
  migrated_at : Int
  deriving DecidableEq

/-- The `alert_data` JSON blob built by `monitorNewCoins` in realtime.js:
a snapshot of the coin and of the creator's statistics at trigger time. -/
structure AlertData where
  coinSymbol : String
  coinName : Option String
  coinMint : String
  coinImage : Option String
  coinCreatedAt : Int
  developerAddress : String
  developerMigrations : Nat
  developerMigrationRate : ℚ
  developerTotalCoins : Nat
  developerLastMigrated : Option String
  developerLastMigratedAt : Option Int
  deriving DecidableEq

/-- Row of the `alerts` table (schema.sql). -/
structure AlertRow where
  coin_mint : String
  developer_address : String
  alert_data : AlertData
  deriving DecidableEq

/-- The wallet-pipeline database: tables `developers`, `coins`,
`migrations`, `alerts`. -/
structure DB where
  developers : List DevRow
  coins : List CoinRow
  migrations : List MigRow
  alerts : List AlertRow
  deriving DecidableEq

/-- The row inserted by `upsertCoin` (queries.js lines 72-115) when no row
with this mint exists: `is_migrated = coin.complete || false`,
`migrated_at = coin.complete ? coin.created_timestamp : null`. -/
def insertRowOfCoin (c : Coin) : CoinRow :=
  { mint := c.mint
    symbol := c.symbol
    name := c.name
    description := c.description
    image_uri := c.image_uri
    creator_address := c.creator
    created_timestamp := c.created_timestamp
    is_migrated := c.complete
    migrated_at := if c.complete then some c.created_timestamp else none
    market_cap := c.usd_market_cap
    bonding_curve := c.bonding_curve
    metadata := c }

/-- Effect of `upsertCoin`'s `ON CONFLICT (mint) DO UPDATE SET
is_migrated = EXCLUDED.is_migrated, migrated_at = EXCLUDED.migrated_at,
market_cap = EXCLUDED.market_cap` on an existing row. -/
def applyCoinUpdate (r : CoinRow) (c : Coin) : CoinRow :=
  { r with
    is_migrated := c.complete
    migrated_at := if c.complete then some c.created_timestamp else none
    market_cap := c.usd_market_cap }

/-- `upsertCoin` (queries.js lines 72-115): insert the coin keyed by mint, or
on conflict update the migration flag, migration timestamp and market cap of
the existing row.  The per-row update rule is the one `bulkUpsertCoins`
(queries.js lines 266-316) applies to each coin of a batch. -/
def upsertCoin (t : List CoinRow) (c : Coin) : List CoinRow :=
  if ∃ r ∈ t, r.mint = c.mint then
    t.map (fun r => if r.mint = c.mint then applyCoinUpdate r c else r)
  else
    t ++ [insertRowOfCoin c]

/-- `bulkUpsertCoins` (queries.js lines 266-316) with every statement
succeeding: the transaction commits and each coin is upserted in order. -/
def bulkUpsertCoins (t : List CoinRow) (cs : List Coin) : List CoinRow :=
  cs.foldl upsertCoin t

/-- `getCoinByMint` (queries.js lines 117-121). -/
def getCoinByMint (t : List CoinRow) (m : String) : Option CoinRow :=
  t.find? (fun r => r.mint == m)

/-- `getDeveloperByAddress` (queries.js lines 45-49). -/
def getDeveloperByAddress (devs : List DevRow) (a : String) : Option DevRow :=
  devs.find? (fun r => r.address == a)

/-- `upsertDeveloper` (queries.js lines 7-43): insert keyed by address, or on
conflict overwrite every statistics column with the incoming values. -/
def upsertDeveloper (devs : List DevRow) (d : DevRow) : List DevRow :=
  if ∃ r ∈ devs, r.address = d.address then
    devs.map (fun r => if r.address = d.address then d else r)
  else
    devs ++ [d]

/-- `insertMigration` (queries.js lines 163-172).  The `migrations` table has
no uniqueness constraint beyond its serial primary key, so the plain insert
appends a row. -/
def insertMigration (t : List MigRow) (mint addr : String) (ts : Int) : List MigRow :=
  t ++ [{ coin_mint := mint, developer_address := addr, migrated_at := ts }]

/-- `insertAlert` (queries.js lines 196-204): a plain insert, one new row per
call. -/
def insertAlert (t : List AlertRow) (a : AlertRow) : List AlertRow :=
  t ++ [a]

/-- The mints present in a coins table. -/
def coinMints (t : List CoinRow) : List String :=
  t.map (fun r => r.mint)

-- ============================================================
-- C5 : the coin upsert is idempotent
-- ============================================================

theorem applyCoinUpdate_mint (r : CoinRow) (c : Coin) :
    (applyCoinUpdate r c).mint = r.mint := rfl

theorem applyCoinUpdate_idem (r : CoinRow) (c : Coin) :
    applyCoinUpdate (applyCoinUpdate r c) c = applyCoinUpdate r c := rfl

theorem applyCoinUpdate_insertRow (c : Coin) :
    applyCoinUpdate (insertRowOfCoin c) c = insertRowOfCoin c := rfl

theorem upsertCoin_pos {t : List CoinRow} {c : Coin} (h : ∃ r ∈ t, r.mint = c.mint) :
    upsertCoin t c = t.map (fun r => if r.mint = c.mint then applyCoinUpdate r c else r) := by
  unfold upsertCoin
  rw [if_pos h]

theorem upsertCoin_neg {t : List CoinRow} {c : Coin} (h : ¬∃ r ∈ t, r.mint = c.mint) :
    upsertCoin t c = t ++ [insertRowOfCoin c] := by
  unfold upsertCoin
  rw [if_neg h]

theorem upsertCoin_twice (t : List CoinRow) (c : Coin) :
    upsertCoin (upsertCoin t c) c = upsertCoin t c := by
  by_cases h : ∃ r ∈ t, r.mint = c.mint
  · obtain ⟨r, hr, hmint⟩ := h
    rw [upsertCoin_pos ⟨r, hr, hmint⟩]
    have hmem : ∃ r' ∈ t.map (fun r => if r.mint = c.mint then applyCoinUpdate r c else r),
        r'.mint = c.mint := by
      refine ⟨applyCoinUpdate r c, ?_, by rw [applyCoinUpdate_mint]; exact hmint⟩
      exact List.mem_map.mpr ⟨r, hr, by rw [if_pos hmint]⟩
    rw [upsertCoin_pos hmem, List.map_map]
    apply List.map_congr_left
    intro r' _
    by_cases h' : r'.mint = c.mint
    · simp only [Function.comp, if_pos h', applyCoinUpdate_mint, applyCoinUpdate_idem]
    · simp only [Function.comp, if_neg h']
  · rw [upsertCoin_neg h]
    have hmem : ∃ r' ∈ t ++ [insertRowOfCoin c], r'.mint = c.mint :=
      ⟨insertRowOfCoin c, by simp, rfl⟩
    rw [upsertCoin_pos hmem, List.map_append]
    have h1 : t.map (fun r => if r.mint = c.mint then applyCoinUpdate r c else r) = t := by
      conv_rhs => rw [← List.map_id t]
      apply List.map_congr_left
      intro r hr
      rw [if_neg (fun hc => h ⟨r, hr, hc⟩)]
      rfl
    have h2 : [insertRowOfCoin c].map
        (fun r => if r.mint = c.mint then applyCoinUpdate r c else r)
        = [insertRowOfCoin c] := by
      rw [List.map_singleton, if_pos (show (insertRowOfCoin c).mint = c.mint from rfl),
        applyCoinUpdate_insertRow]
    rw [h1, h2]

theorem upsertCoin_mints_subset (t : List CoinRow) (c : Coin) :
    ∀ m ∈ coinMints (upsertCoin t c), m ∈ coinMints t ∨ m = c.mint := by
  intro m hm
  by_cases h : ∃ r ∈ t, r.mint = c.mint
  · rw [upsertCoin_pos h] at hm
    unfold coinMints at hm ⊢
    rw [List.map_map] at hm
    obtain ⟨r, hr, hrm⟩ := List.mem_map.mp hm
    by_cases h' : r.mint = c.mint
    · right
      simp only [Function.comp, if_pos h', applyCoinUpdate_mint] at hrm
      rw [← hrm, h']
    · left
      simp only [Function.comp, if_neg h'] at hrm
      exact hrm ▸ List.mem_map.mpr ⟨r, hr, rfl⟩
  · rw [upsertCoin_neg h] at hm
    unfold coinMints at hm ⊢
    rw [List.map_append] at hm
    rcases List.mem_append.mp hm with h1 | h2
    · exact Or.inl h1
    · right
      simp [insertRowOfCoin] at h2
      exact h2

theorem coinMints_upsert_pos {t : List CoinRow} {c : Coin} (h : ∃ r ∈ t, r.mint = c.mint) :
    coinMints (upsertCoin t c) = coinMints t := by
  rw [upsertCoin_pos h]
  unfold coinMints
  rw [List.map_map]
  apply List.map_congr_left
  intro r _
  by_cases h' : r.mint = c.mint
  · simp only [Function.comp, if_pos h', applyCoinUpdate_mint]
  · simp only [Function.comp, if_neg h']

theorem coinMints_upsert_neg {t : List CoinRow} {c : Coin} (h : ¬∃ r ∈ t, r.mint = c.mint) :
    coinMints (upsertCoin t c) = coinMints t ++ [c.mint] := by
  rw [upsertCoin_neg h]
  unfold coinMints
  rw [List.map_append]
  rfl

theorem mem_coinMints {t : List CoinRow} {m : String} :
    m ∈ coinMints t ↔ ∃ r ∈ t, r.mint = m := by
  unfold coinMints
  constructor
  · intro h
    obtain ⟨r, hr, hrm⟩ := List.mem_map.mp h
    exact ⟨r, hr, hrm⟩
  · rintro ⟨r, hr, hrm⟩
    exact List.mem_map.mpr ⟨r, hr, hrm⟩

theorem mem_coinMints_upsert {t : List CoinRow} {c : Coin} {m : String} (h : m ≠ c.mint) :
    m ∈ coinMints (upsertCoin t c) ↔ m ∈ coinMints t := by
  by_cases hex : ∃ r ∈ t, r.mint = c.mint
  · rw [coinMints_upsert_pos hex]
  · rw [coinMints_upsert_neg hex, List.mem_append]
    simp only [List.mem_singleton]
    exact ⟨fun hm => hm.resolve_right h, Or.inl⟩

theorem mem_coinMints_upsert_self (t : List CoinRow) (c : Coin) :
    c.mint ∈ coinMints (upsertCoin t c) := by
  by_cases hex : ∃ r ∈ t, r.mint = c.mint
  · rw [coinMints_upsert_pos hex]
    exact mem_coinMints.mpr hex
  · rw [coinMints_upsert_neg hex]
    simp

/-- C5: applying the coin upsert twice with the same coin record leaves the
coins table in the same state as applying it once; the table keeps at most
one row per mint; and the immutable columns (mint, symbol, name, description,
creator, creation timestamp) of every pre-existing row survive an upsert
unchanged (the conflict branch only touches `is_migrated`, `migrated_at`,
`market_cap`). -/
theorem C5_upsertCoin_idempotent (t : List CoinRow) (c : Coin) :
    upsertCoin (upsertCoin t c) c = upsertCoin t c
    ∧ ((coinMints t).Nodup → (coinMints (upsertCoin t c)).Nodup)
    ∧ (∀ r ∈ t, ∃ r' ∈ upsertCoin t c,
        r'.mint = r.mint ∧ r'.symbol = r.symbol ∧ r'.name = r.name ∧
        r'.description = r.description ∧ r'.creator_address = r.creator_address ∧
        r'.created_timestamp = r.created_timestamp) := by
  refine ⟨upsertCoin_twice t c, ?_, ?_⟩
  · intro hnd
    by_cases hex : ∃ r ∈ t, r.mint = c.mint
    · rw [coinMints_upsert_pos hex]
      exact hnd
    · rw [coinMints_upsert_neg hex]
      rw [List.nodup_append]
      refine ⟨hnd, List.nodup_singleton _, ?_⟩
      intro m hm hm'
      rw [List.mem_singleton] at hm'
      exact hex (mem_coinMints.mp (hm' ▸ hm))
  · intro r hr
    by_cases hex : ∃ r' ∈ t, r'.mint = c.mint
    · rw [upsertCoin_pos hex]
      refine ⟨if r.mint = c.mint then applyCoinUpdate r c else r,
        List.mem_map.mpr ⟨r, hr, rfl⟩, ?_⟩
      by_cases h' : r.mint = c.mint
      · rw [if_pos h']
        exact ⟨rfl, rfl, rfl, rfl, rfl, rfl⟩
      · rw [if_neg h']
        exact ⟨rfl, rfl, rfl, rfl, rfl, rfl⟩
    · rw [upsertCoin_neg hex]
      exact ⟨r, List.mem_append_left _ hr, rfl, rfl, rfl, rfl, rfl, rfl⟩

/-- Sample migrated coin record (used by concrete witnesses). -/
def coinX : Coin :=
  { mint := "X", symbol := "XS", name := some "XName", description := none,
    image_uri := none, creator := "devA", created_timestamp := 5,
    complete := true, usd_market_cap := some 10, bonding_curve := none }

/-- The same mint fetched again later with `complete = false` (a stale or
out-of-order upstream record). -/
def staleX : Coin := { coinX with complete := false, usd_market_cap := some 3 }

/-- Witness for C5 at a concrete input. -/
theorem C5_upsertCoin_idempotent_witness :
    (coinMints (upsertCoin [insertRowOfCoin coinX] staleX)).Nodup
    ∧ (∃ r' ∈ upsertCoin [insertRowOfCoin coinX] staleX,
        r'.mint = (insertRowOfCoin coinX).mint ∧
        r'.symbol = (insertRowOfCoin coinX).symbol ∧
        r'.name = (insertRowOfCoin coinX).name ∧
        r'.description = (insertRowOfCoin coinX).description ∧
        r'.creator_address = (insertRowOfCoin coinX).creator_address ∧
        r'.created_timestamp = (insertRowOfCoin coinX).created_timestamp) :=
  ⟨(C5_upsertCoin_idempotent [insertRowOfCoin coinX] staleX).2.1 (by decide),
   (C5_upsertCoin_idempotent [insertRowOfCoin coinX] staleX).2.2
     (insertRowOfCoin coinX) (by decide)⟩

/-- C2 is a code bug: `upsertCoin`'s conflict branch overwrites
`is_migrated` and `migrated_at` with the incoming values unconditionally, so
an upsert built from a record with `complete = false` resets a migrated row's
flag to false and clears its migration timestamp.  Concretely: the stored row
for mint "X" is migrated with `migrated_at = 5`; upserting the stale record
flips it back.  The final conjunct shows the conflict branch is
last-writer-wins for every row and coin. -/
theorem C2_upsert_resets_migration :
    (insertRowOfCoin coinX).is_migrated = true
    ∧ (insertRowOfCoin coinX).migrated_at = some 5
    ∧ (upsertCoin [insertRowOfCoin coinX] staleX).map
        (fun r => (r.is_migrated, r.migrated_at)) = [(false, none)]
    ∧ (∀ (r : CoinRow) (c : Coin),
        (applyCoinUpdate r c).is_migrated = c.complete ∧
        (applyCoinUpdate r c).migrated_at
          = (if c.complete then some c.created_timestamp else none)) := by
  refine ⟨rfl, rfl, by decide, fun r c => ⟨rfl, rfl⟩⟩

-- ============================================================
-- New-coin polling loop (realtime.js, `monitorNewCoins`)
-- ============================================================

/-- Adding a mint to the module-level `seenCoins` JavaScript Set: appended in
insertion order, no effect when already present. -/
def addSeen (s : List String) (m : String) : List String :=
  if m ∈ s then s else s ++ [m]

/-- Failure oracles for the awaited database calls inside the per-coin
`try/catch` of `monitorNewCoins`: whether `upsertCoin` and `insertAlert`
succeed for a given mint during this scan.  A `false` models the call
throwing; the catch logs and moves to the next coin, keeping every state
change made before the throw. -/
structure OpOutcome where
  upsertOk : String → Bool
  alertOk : String → Bool

/-- The environment in which no database call throws. -/
def allOk : OpOutcome := ⟨fun _ => true, fun _ => true⟩

/-- In-process state of the new-coin monitor: the database plus the
module-level `seenCoins` set. -/
structure MonitorState where
  db : DB
  seen : List String
  deriving DecidableEq

/-- The `alertData` snapshot built at lines 65-77 of realtime.js together
with the `insertAlert(coin.mint, coin.creator, alertData)` row. -/
def mkAlertRow (c : Coin) (d : DevRow) : AlertRow :=
  { coin_mint := c.mint
    developer_address := c.creator
    alert_data :=
      { coinSymbol := c.symbol
        coinName := c.name
        coinMint := c.mint
        coinImage := c.image_uri
        coinCreatedAt := c.created_timestamp
        developerAddress := c.creator
        developerMigrations := d.migration_count
        developerMigrationRate := d.migration_rate
        developerTotalCoins := d.total_coins
        developerLastMigrated := d.last_migrated_coin_symbol
        developerLastMigratedAt := d.last_migrated_timestamp } }

/-- `seenCoins.add(coin.mint)`. -/
def markSeen (st : MonitorState) (m : String) : MonitorState :=
  { st with seen := addSeen st.seen m }

/-- `await upsertCoin(coin)` against the monitor state. -/
def storeCoin (st : MonitorState) (c : Coin) : MonitorState :=
  { st with db := { st.db with coins := upsertCoin st.db.coins c } }

/-- `await insertAlert(...)` against the monitor state. -/
def pushAlert (st : MonitorState) (a : AlertRow) : MonitorState :=
  { st with db := { st.db with alerts := insertAlert st.db.alerts a } }

/-- One iteration of the `for (const coin of recentCoins)` loop of
`monitorNewCoins` (realtime.js lines 23-85): skip if the mint is in
`seenCoins`; else if the coin is already in the database, remember it and
skip; else mark it seen, store it, look the creator up in `developers`, and
when the creator exists with `migration_count > 0` insert one alert.
Counter bookkeeping and logging are omitted. -/
def processNewCoin (env : OpOutcome) (st : MonitorState) (c : Coin) : MonitorState :=
  if c.mint ∈ st.seen then st
  else
    match getCoinByMint st.db.coins c.mint with
    | some _ => markSeen st c.mint
    | none =>
      let st1 := markSeen st c.mint
      if env.upsertOk c.mint then
        let st2 := storeCoin st1 c
        match getDeveloperByAddress st2.db.developers c.creator with
        | some d =>
          if 0 < d.migration_count then
            if env.alertOk c.mint then pushAlert st2 (mkAlertRow c d) else st2
          else st2
        | none => st2
      else st1

/-- One full scan of `monitorNewCoins` over the fetched recent coins. -/
def monitorNewCoins (env : OpOutcome) (st : MonitorState) (cs : List Coin) : MonitorState :=
  cs.foldl (processNewCoin env) st

/-- The alert rows referencing a given mint. -/
def alertsFor (al : List AlertRow) (m : String) : List AlertRow :=
  al.filter (fun a => a.coin_mint == m)

theorem alertsFor_append (al bl : List AlertRow) (m : String) :
    alertsFor (al ++ bl) m = alertsFor al m ++ alertsFor bl m := by
  unfold alertsFor
  exact List.filter_append al bl

theorem alertsFor_push_self (al : List AlertRow) (a : AlertRow) :
    alertsFor (al ++ [a]) a.coin_mint = alertsFor al a.coin_mint ++ [a] := by
  rw [alertsFor_append]
  unfold alertsFor
  simp

theorem alertsFor_push_ne (al : List AlertRow) (a : AlertRow) (m : String)
    (h : a.coin_mint ≠ m) :
    alertsFor (al ++ [a]) m = alertsFor al m := by
  rw [alertsFor_append]
  unfold alertsFor
  simp [h]

theorem getCoinByMint_eq_none {t : List CoinRow} {m : String} :
    getCoinByMint t m = none ↔ m ∉ coinMints t := by
  unfold getCoinByMint
  rw [List.find?_eq_none]
  constructor
  · intro h hm
    obtain ⟨r, hr, hrm⟩ := mem_coinMints.mp hm
    exact h r hr (by simp [hrm])
  · intro h r hr hb
    exact h (mem_coinMints.mpr ⟨r, hr, by simpa using hb⟩)

theorem getCoinByMint_isSome {t : List CoinRow} {m : String} (h : m ∈ coinMints t) :
    ∃ row, getCoinByMint t m = some row := by
  cases heq : getCoinByMint t m with
  | none => exact absurd h (getCoinByMint_eq_none.mp heq)
  | some row => exact ⟨row, rfl⟩

theorem addSeen_mem {s : List String} {m m' : String} :
    m ∈ addSeen s m' ↔ m ∈ s ∨ m = m' := by
  unfold addSeen
  by_cases h : m' ∈ s
  · rw [if_pos h]
    exact ⟨Or.inl, fun hm => hm.elim id (fun he => he ▸ h)⟩
  · rw [if_neg h]
    simp [List.mem_append]

theorem addSeen_of_not_mem {s : List String} {m : String} (h : m ∉ s) :
    addSeen s m = s ++ [m] := if_neg h

theorem processNewCoin_skip {env : OpOutcome} {st : MonitorState} {c : Coin}
    (h : c.mint ∈ st.seen) : processNewCoin env st c = st := by
  unfold processNewCoin
  rw [if_pos h]

theorem processNewCoin_existing {env : OpOutcome} {st : MonitorState} {c : Coin}
    {row : CoinRow} (h1 : c.mint ∉ st.seen)
    (h2 : getCoinByMint st.db.coins c.mint = some row) :
    processNewCoin env st c = markSeen st c.mint := by
  unfold processNewCoin
  rw [if_neg h1, h2]

theorem processNewCoin_fresh_fail {env : OpOutcome} {st : MonitorState} {c : Coin}
    (h1 : c.mint ∉ st.seen) (h2 : getCoinByMint st.db.coins c.mint = none)
    (h3 : env.upsertOk c.mint = false) :
    processNewCoin env st c = markSeen st c.mint := by
  unfold processNewCoin
  rw [if_neg h1, h2]
  simp [h3]

theorem processNewCoin_fresh_devnone {env : OpOutcome} {st : MonitorState} {c : Coin}
    (h1 : c.mint ∉ st.seen) (h2 : getCoinByMint st.db.coins c.mint = none)
    (h3 : env.upsertOk c.mint = true)
    (h4 : getDeveloperByAddress st.db.developers c.creator = none) :
    processNewCoin env st c = storeCoin (markSeen st c.mint) c := by
  unfold processNewCoin
  rw [if_neg h1, h2]
  simp only [h3, if_true, storeCoin, markSeen]
  rw [show getDeveloperByAddress st.db.developers c.creator = none from h4]

theorem processNewCoin_fresh_zero {env : OpOutcome} {st : MonitorState} {c : Coin}
    {d : DevRow} (h1 : c.mint ∉ st.seen) (h2 : getCoinByMint st.db.coins c.mint = none)
    (h3 : env.upsertOk c.mint = true)
    (h4 : getDeveloperByAddress st.db.developers c.creator = some d)
    (h5 : d.migration_count = 0) :
    processNewCoin env st c = storeCoin (markSeen st c.mint) c := by
  unfold processNewCoin
  rw [if_neg h1, h2]
  simp only [h3, if_true, storeCoin, markSeen]
  rw [show getDeveloperByAddress st.db.developers c.creator = some d from h4]
  simp [h5]

theorem processNewCoin_fresh_alert {env : OpOutcome} {st : MonitorState} {c : Coin}
    {d : DevRow} (h1 : c.mint ∉ st.seen) (h2 : getCoinByMint st.db.coins c.mint = none)
    (h3 : env.upsertOk c.mint = true)
    (h4 : getDeveloperByAddress st.db.developers c.creator = some d)
    (h5 : 0 < d.migration_count) (h6 : env.alertOk c.mint = true) :
    processNewCoin env st c
      = pushAlert (storeCoin (markSeen st c.mint) c) (mkAlertRow c d) := by
  unfold processNewCoin
  rw [if_neg h1, h2]
  simp only [h3, if_true, storeCoin, markSeen, pushAlert]
  rw [show getDeveloperByAddress st.db.developers c.creator = some d from h4]
  simp [h5, h6]

theorem processNewCoin_fresh_alertfail {env : OpOutcome} {st : MonitorState} {c : Coin}
    {d : DevRow} (h1 : c.mint ∉ st.seen) (h2 : getCoinByMint st.db.coins c.mint = none)
    (h3 : env.upsertOk c.mint = true)
    (h4 : getDeveloperByAddress st.db.developers c.creator = some d)
    (h5 : 0 < d.migration_count) (h6 : env.alertOk c.mint = false) :
    processNewCoin env st c = storeCoin (markSeen st c.mint) c := by
  unfold processNewCoin
  rw [if_neg h1, h2]
  simp only [h3, if_true, storeCoin, markSeen]
  rw [show getDeveloperByAddress st.db.developers c.creator = some d from h4]
  simp [h5, h6]

theorem processNewCoin_cases (env : OpOutcome) (st : MonitorState) (c : Coin) :
    processNewCoin env st c = st
    ∨ processNewCoin env st c = markSeen st c.mint
    ∨ processNewCoin env st c = storeCoin (markSeen st c.mint) c
    ∨ ∃ d, getDeveloperByAddress st.db.developers c.creator = some d
        ∧ processNewCoin env st c
            = pushAlert (storeCoin (markSeen st c.mint) c) (mkAlertRow c d) := by
  by_cases h1 : c.mint ∈ st.seen
  · exact Or.inl (processNewCoin_skip h1)
  · cases h2 : getCoinByMint st.db.coins c.mint with
    | some row => exact Or.inr (Or.inl (processNewCoin_existing h1 h2))
    | none =>
      cases h3 : env.upsertOk c.mint with
      | false => exact Or.inr (Or.inl (processNewCoin_fresh_fail h1 h2 h3))
      | true =>
        cases h4 : getDeveloperByAddress st.db.developers c.creator with
        | none => exact Or.inr (Or.inr (Or.inl (processNewCoin_fresh_devnone h1 h2 h3 h4)))
        | some d =>
          by_cases h5 : 0 < d.migration_count
          · cases h6 : env.alertOk c.mint with
            | true =>
              exact Or.inr (Or.inr (Or.inr
                ⟨d, rfl, processNewCoin_fresh_alert h1 h2 h3 h4 h5 h6⟩))
            | false =>
              exact Or.inr (Or.inr (Or.inl
                (processNewCoin_fresh_alertfail h1 h2 h3 h4 h5 h6)))
          · exact Or.inr (Or.inr (Or.inl
              (processNewCoin_fresh_zero h1 h2 h3 h4 (Nat.eq_zero_of_not_pos h5))))

theorem processNewCoin_developers (env : OpOutcome) (st : MonitorState) (c : Coin) :
    (processNewCoin env st c).db.developers = st.db.developers := by
  rcases processNewCoin_cases env st c with h | h | h | ⟨d, _, h⟩ <;>
    simp [h, markSeen, storeCoin, pushAlert]

theorem processNewCoin_seen_mono {env : OpOutcome} {st : MonitorState} {c : Coin}
    {m : String} (h : m ∈ st.seen) : m ∈ (processNewCoin env st c).seen := by
  rcases processNewCoin_cases env st c with h1 | h1 | h1 | ⟨d, _, h1⟩ <;>
    rw [h1] <;>
    first
      | exact h
      | (simp only [markSeen, storeCoin, pushAlert]
         exact addSeen_mem.mpr (Or.inl h))

theorem processNewCoin_seen_sub {env : OpOutcome} {st : MonitorState} {c : Coin}
    {m : String} (h : m ∈ (processNewCoin env st c).seen) : m ∈ st.seen ∨ m = c.mint := by
  rcases processNewCoin_cases env st c with h1 | h1 | h1 | ⟨d, _, h1⟩ <;>
    rw [h1] at h <;>
    first
      | exact Or.inl h
      | (simp only [markSeen, storeCoin, pushAlert] at h
         exact addSeen_mem.mp h)

theorem processNewCoin_alertsFor_stable {env : OpOutcome} {st : MonitorState} {c : Coin}
    {m : String} (hne : c.mint ≠ m) :
    alertsFor (processNewCoin env st c).db.alerts m = alertsFor st.db.alerts m := by
  rcases processNewCoin_cases env st c with h1 | h1 | h1 | ⟨d, _, h1⟩ <;>
    rw [h1] <;>
    first
      | rfl
      | (simp only [markSeen, storeCoin, pushAlert, insertAlert]
         exact alertsFor_push_ne _ _ _ hne)

theorem processNewCoin_alertsFor_of_seen {env : OpOutcome} {st : MonitorState} {c : Coin}
    {m : String} (h : m ∈ st.seen) :
    alertsFor (processNewCoin env st c).db.alerts m = alertsFor st.db.alerts m := by
  by_cases hne : c.mint = m
  · rw [processNewCoin_skip (hne ▸ h)]
  · exact processNewCoin_alertsFor_stable hne

theorem processNewCoin_coins_mem {env : OpOutcome} {st : MonitorState} {c : Coin}
    {m : String} (h : m ∈ coinMints st.db.coins) :
    m ∈ coinMints (processNewCoin env st c).db.coins := by
  rcases processNewCoin_cases env st c with h1 | h1 | h1 | ⟨d, _, h1⟩ <;>
    rw [h1] <;>
    first
      | exact h
      | (simp only [markSeen, storeCoin, pushAlert]
         by_cases hne : m = c.mint
         · exact hne ▸ mem_coinMints_upsert_self _ _
         · exact (mem_coinMints_upsert hne).mpr h)

theorem processNewCoin_coins_not_mem {env : OpOutcome} {st : MonitorState} {c : Coin}
    {m : String} (hne : c.mint ≠ m) (h : m ∉ coinMints st.db.coins) :
    m ∉ coinMints (processNewCoin env st c).db.coins := by
  rcases processNewCoin_cases env st c with h1 | h1 | h1 | ⟨d, _, h1⟩ <;>
    rw [h1] <;>
    first
      | exact h
      | (simp only [markSeen, storeCoin, pushAlert]
         exact fun hm => h ((mem_coinMints_upsert (fun he => hne he.symm)).mp hm))

theorem processNewCoin_alertsFor_of_stored {env : OpOutcome} {st : MonitorState}
    {c : Coin} {m : String} (h : m ∈ coinMints st.db.coins) :
    alertsFor (processNewCoin env st c).db.alerts m = alertsFor st.db.alerts m := by
  by_cases hne : c.mint = m
  · by_cases h1 : c.mint ∈ st.seen
    · rw [processNewCoin_skip h1]
    · obtain ⟨row, hrow⟩ := getCoinByMint_isSome (hne ▸ h)
      rw [processNewCoin_existing h1 hrow]
      rfl
  · exact processNewCoin_alertsFor_stable hne

theorem processNewCoin_seen_of_not_mem {env : OpOutcome} {st : MonitorState} {c : Coin}
    (h : c.mint ∉ st.seen) :
    (processNewCoin env st c).seen = st.seen ++ [c.mint] := by
  cases h2 : getCoinByMint st.db.coins c.mint with
  | some row =>
    rw [processNewCoin_existing h h2]
    simp [markSeen, addSeen_of_not_mem h]
  | none =>
    cases h3 : env.upsertOk c.mint with
    | false =>
      rw [processNewCoin_fresh_fail h h2 h3]
      simp [markSeen, addSeen_of_not_mem h]
    | true =>
      cases h4 : getDeveloperByAddress st.db.developers c.creator with
      | none =>
        rw [processNewCoin_fresh_devnone h h2 h3 h4]
        simp [storeCoin, markSeen, addSeen_of_not_mem h]
      | some d =>
        by_cases h5 : 0 < d.migration_count
        · cases h6 : env.alertOk c.mint with
          | true =>
            rw [processNewCoin_fresh_alert h h2 h3 h4 h5 h6]
            simp [pushAlert, storeCoin, markSeen, addSeen_of_not_mem h]
          | false =>
            rw [processNewCoin_fresh_alertfail h h2 h3 h4 h5 h6]
            simp [storeCoin, markSeen, addSeen_of_not_mem h]
        · rw [processNewCoin_fresh_zero h h2 h3 h4 (Nat.eq_zero_of_not_pos h5)]
          simp [storeCoin, markSeen, addSeen_of_not_mem h]

theorem monitorNewCoins_nil (env : OpOutcome) (st : MonitorState) :
    monitorNewCoins env st [] = st := rfl

theorem monitorNewCoins_cons (env : OpOutcome) (st : MonitorState) (c : Coin)
    (cs : List Coin) :
    monitorNewCoins env st (c :: cs) = monitorNewCoins env (processNewCoin env st c) cs := rfl

theorem monitorNewCoins_developers (env : OpOutcome) (st : MonitorState) (cs : List Coin) :
    (monitorNewCoins env st cs).db.developers = st.db.developers := by
  induction cs generalizing st with
  | nil => rfl
  | cons c cs ih => rw [monitorNewCoins_cons, ih, processNewCoin_developers]

theorem monitorNewCoins_of_seen {env : OpOutcome} {st : MonitorState} {cs : List Coin}
    {m : String} (h : m ∈ st.seen) :
    m ∈ (monitorNewCoins env st cs).seen
    ∧ alertsFor (monitorNewCoins env st cs).db.alerts m = alertsFor st.db.alerts m := by
  induction cs generalizing st with
  | nil => exact ⟨h, rfl⟩
  | cons c cs ih =>
    rw [monitorNewCoins_cons]
    obtain ⟨ha, hb⟩ := ih (processNewCoin_seen_mono h)
    exact ⟨ha, hb.trans (processNewCoin_alertsFor_of_seen h)⟩

theorem monitorNewCoins_of_seen_unstored {env : OpOutcome} {st : MonitorState}
    {cs : List Coin} {m : String} (h : m ∈ st.seen) (h2 : m ∉ coinMints st.db.coins) :
    m ∉ coinMints (monitorNewCoins env st cs).db.coins := by
  induction cs generalizing st with
  | nil => exact h2
  | cons c cs ih =>
    rw [monitorNewCoins_cons]
    by_cases hne : c.mint = m
    · rw [processNewCoin_skip (by rw [hne]; exact h)]
      exact ih h h2
    · exact ih (processNewCoin_seen_mono h) (processNewCoin_coins_not_mem hne h2)

theorem monitorNewCoins_of_stored {env : OpOutcome} {st : MonitorState} {cs : List Coin}
    {m : String} (h : m ∈ coinMints st.db.coins) :
    m ∈ coinMints (monitorNewCoins env st cs).db.coins
    ∧ alertsFor (monitorNewCoins env st cs).db.alerts m = alertsFor st.db.alerts m := by
  induction cs generalizing st with
  | nil => exact ⟨h, rfl⟩
  | cons c cs ih =>
    rw [monitorNewCoins_cons]
    obtain ⟨ha, hb⟩ := ih (processNewCoin_coins_mem h)
    exact ⟨ha, hb.trans (processNewCoin_alertsFor_of_stored h)⟩

theorem monitorNewCoins_untouched {env : OpOutcome} {st : MonitorState} {cs : List Coin}
    {m : String} (h1 : m ∉ st.seen) (h2 : m ∉ coinMints st.db.coins)
    (h3 : ∀ c ∈ cs, c.mint ≠ m) :
    m ∉ (monitorNewCoins env st cs).seen
    ∧ m ∉ coinMints (monitorNewCoins env st cs).db.coins
    ∧ alertsFor (monitorNewCoins env st cs).db.alerts m = alertsFor st.db.alerts m := by
  induction cs generalizing st with
  | nil => exact ⟨h1, h2, rfl⟩
  | cons c cs ih =>
    have hne : c.mint ≠ m := h3 c (List.mem_cons_self c cs)
    rw [monitorNewCoins_cons]
    have hseen' : m ∉ (processNewCoin env st c).seen := fun hm =>
      (processNewCoin_seen_sub hm).elim h1 (fun he => hne he.symm)
    obtain ⟨a, b, cc⟩ := ih hseen' (processNewCoin_coins_not_mem hne h2)
      (fun c' hc' => h3 c' (List.mem_cons_of_mem c hc'))
    exact ⟨a, b, cc.trans (processNewCoin_alertsFor_stable hne)⟩

/-- C1: in a scan of the new-coin polling loop run against a consistent
state (every cached mint is also stored), a coin already present in storage
never gains an alert; and for a coin not yet in storage and not preceded in
the batch by another record of the same mint, exactly one alert row —
`mkAlertRow c d`, embedding the creator's current statistics snapshot — is
appended when the creator's developer record exists with
`migration_count > 0`, and none is appended when the record is missing or
has `migration_count = 0`. -/
theorem C1_new_coin_alerting (db : DB) (seen : List String) (pre post : List Coin)
    (c : Coin) (hseen : ∀ m ∈ seen, m ∈ coinMints db.coins) :
    (c.mint ∈ coinMints db.coins → ∀ cs : List Coin,
        alertsFor (monitorNewCoins allOk ⟨db, seen⟩ cs).db.alerts c.mint
          = alertsFor db.alerts c.mint)
    ∧ (c.mint ∉ coinMints db.coins → (∀ c' ∈ pre, c'.mint ≠ c.mint) →
        (∀ d, getDeveloperByAddress db.developers c.creator = some d →
            0 < d.migration_count →
            alertsFor (monitorNewCoins allOk ⟨db, seen⟩ (pre ++ c :: post)).db.alerts c.mint
              = alertsFor db.alerts c.mint ++ [mkAlertRow c d])
        ∧ (getDeveloperByAddress db.developers c.creator = none ∨
           (∃ d, getDeveloperByAddress db.developers c.creator = some d ∧
              d.migration_count = 0) →
            alertsFor (monitorNewCoins allOk ⟨db, seen⟩ (pre ++ c :: post)).db.alerts c.mint
              = alertsFor db.alerts c.mint)) := by
  constructor
  · intro hst cs
    exact (@monitorNewCoins_of_stored allOk ⟨db, seen⟩ cs c.mint hst).2
  · intro hnew hpre
    have hns : c.mint ∉ seen := fun hm => hnew (hseen _ hm)
    have hsplit : monitorNewCoins allOk ⟨db, seen⟩ (pre ++ c :: post)
        = monitorNewCoins allOk
            (processNewCoin allOk (monitorNewCoins allOk ⟨db, seen⟩ pre) c) post := by
      unfold monitorNewCoins
      rw [List.foldl_append, List.foldl_cons]
    obtain ⟨hu1, hu2, hu3⟩ :=
      @monitorNewCoins_untouched allOk ⟨db, seen⟩ pre c.mint hns hnew hpre
    set stp := monitorNewCoins allOk ⟨db, seen⟩ pre with hstp
    have hdev : stp.db.developers = db.developers := monitorNewCoins_developers _ _ _
    have hnone : getCoinByMint stp.db.coins c.mint = none := getCoinByMint_eq_none.mpr hu2
    constructor
    · intro d hd hpos
      have hd' : getDeveloperByAddress stp.db.developers c.creator = some d := by
        rw [hdev]; exact hd
      have hstep := @processNewCoin_fresh_alert allOk stp c d hu1 hnone rfl hd' hpos rfl
      rw [hsplit, hstep]
      have hseenin : c.mint ∈ (pushAlert (storeCoin (markSeen stp c.mint) c)
          (mkAlertRow c d)).seen := by
        simp only [pushAlert, storeCoin, markSeen]
        exact addSeen_mem.mpr (Or.inr rfl)
      rw [(@monitorNewCoins_of_seen allOk _ post c.mint hseenin).2]
      have : alertsFor (pushAlert (storeCoin (markSeen stp c.mint) c)
          (mkAlertRow c d)).db.alerts c.mint
          = alertsFor stp.db.alerts c.mint ++ [mkAlertRow c d] := by
        simp only [pushAlert, storeCoin, markSeen, insertAlert]
        exact alertsFor_push_self _ _
      rw [this, hu3]
    · intro hzero
      have hstep : processNewCoin allOk stp c = storeCoin (markSeen stp c.mint) c := by
        rcases hzero with hno | ⟨d, hd, hdz⟩
        · exact processNewCoin_fresh_devnone hu1 hnone rfl (by rw [hdev]; exact hno)
        · exact processNewCoin_fresh_zero hu1 hnone rfl (by rw [hdev]; exact hd) hdz
      rw [hsplit, hstep]
      have hseenin : c.mint ∈ (storeCoin (markSeen stp c.mint) c).seen := by
        simp only [storeCoin, markSeen]
        exact addSeen_mem.mpr (Or.inr rfl)
      rw [(@monitorNewCoins_of_seen allOk _ post c.mint hseenin).2]
      have : alertsFor (storeCoin (markSeen stp c.mint) c).db.alerts c.mint
          = alertsFor stp.db.alerts c.mint := rfl
      rw [this, hu3]

/-- Developer record with migration history, for concrete witnesses. -/
def devArow : DevRow :=
  { address := "devA", total_coins := 3, migration_count := 2,
    migration_rate := (66 : ℚ), last_migrated_coin_symbol := some "OLD",
    last_migrated_coin_mint := some "O", last_migrated_timestamp := some 4 }

/-- A database holding only the tracked developer `devA`. -/
def db0 : DB := { developers := [devArow], coins := [], migrations := [], alerts := [] }

/-- Witness for C1: a fresh coin from `devA` (who has two migrations)
produces exactly the alert `mkAlertRow coinX devArow`. -/
theorem C1_new_coin_alerting_witness :
    alertsFor (monitorNewCoins allOk ⟨db0, []⟩ ([] ++ coinX :: [])).db.alerts coinX.mint
      = alertsFor db0.alerts coinX.mint ++ [mkAlertRow coinX devArow] :=
  ((C1_new_coin_alerting db0 [] [] [] coinX (by decide)).2 (by decide) (by decide)).1
    devArow (by decide) (by decide)

/-- C10: in `monitorNewCoins` the mint is added to `seenCoins` before the
coin is persisted. (a) If `upsertCoin` throws, the catch leaves the mint in
the seen set with the database untouched, and every later scan — under any
failure environment and any fetched batch — leaves the coin unstored and
unalerted. (b) If `insertAlert` throws after a successful upsert, the coin
is stored but no later scan ever alerts for it. (c) Any later observation of
a cached mint is skipped at the cache check, as a no-op. -/
theorem C10_failed_coin_never_retried (env : OpOutcome) (st : MonitorState) (c : Coin)
    (h1 : c.mint ∉ st.seen) (h2 : getCoinByMint st.db.coins c.mint = none) :
    (env.upsertOk c.mint = false →
      (processNewCoin env st c).seen = st.seen ++ [c.mint]
      ∧ (processNewCoin env st c).db = st.db
      ∧ ∀ (env2 : OpOutcome) (cs : List Coin),
          c.mint ∈ (monitorNewCoins env2 (processNewCoin env st c) cs).seen
          ∧ c.mint ∉ coinMints (monitorNewCoins env2 (processNewCoin env st c) cs).db.coins
          ∧ alertsFor (monitorNewCoins env2 (processNewCoin env st c) cs).db.alerts c.mint
              = alertsFor st.db.alerts c.mint)
    ∧ (∀ d, env.upsertOk c.mint = true →
        getDeveloperByAddress st.db.developers c.creator = some d →
        0 < d.migration_count → env.alertOk c.mint = false →
        processNewCoin env st c = storeCoin (markSeen st c.mint) c
        ∧ ∀ (env2 : OpOutcome) (cs : List Coin),
            alertsFor (monitorNewCoins env2 (processNewCoin env st c) cs).db.alerts c.mint
              = alertsFor st.db.alerts c.mint)
    ∧ (∀ (env2 : OpOutcome) (st2 : MonitorState) (c2 : Coin),
        c2.mint ∈ st2.seen → processNewCoin env2 st2 c2 = st2) := by
  refine ⟨?_, ?_, fun env2 st2 c2 hm => processNewCoin_skip hm⟩
  · intro hfail
    have hstep := processNewCoin_fresh_fail h1 h2 hfail
    have hseen : (processNewCoin env st c).seen = st.seen ++ [c.mint] := by
      rw [hstep]
      simp [markSeen, addSeen_of_not_mem h1]
    refine ⟨hseen, by rw [hstep]; rfl, ?_⟩
    intro env2 cs
    have hmem : c.mint ∈ (processNewCoin env st c).seen := by
      rw [hseen]; simp
    have hdb : (processNewCoin env st c).db = st.db := by rw [hstep]; rfl
    have hnst : c.mint ∉ coinMints (processNewCoin env st c).db.coins := by
      rw [hdb]; exact getCoinByMint_eq_none.mp h2
    refine ⟨(monitorNewCoins_of_seen hmem).1,
      monitorNewCoins_of_seen_unstored hmem hnst, ?_⟩
    rw [(@monitorNewCoins_of_seen env2 _ cs c.mint hmem).2, hdb]
  · intro d hok hd hpos hafail
    have hstep := processNewCoin_fresh_alertfail h1 h2 hok hd hpos hafail
    refine ⟨hstep, ?_⟩
    intro env2 cs
    have hmem : c.mint ∈ (processNewCoin env st c).seen := by
      rw [hstep]
      simp only [storeCoin, markSeen]
      exact addSeen_mem.mpr (Or.inr rfl)
    rw [(@monitorNewCoins_of_seen env2 _ cs c.mint hmem).2, hstep]
    rfl

/-- Failure environment in which persisting mint "X" throws. -/
def envFailX : OpOutcome := ⟨fun m => !(m == "X"), fun _ => true⟩

/-- Witness for C10: with the upsert for mint "X" throwing, the first
processing leaves "X" cached but unstored, and a full later scan of the same
batch neither stores nor alerts it. -/
theorem C10_failed_coin_never_retried_witness :
    (processNewCoin envFailX ⟨db0, []⟩ coinX).seen = [] ++ ["X"]
    ∧ (processNewCoin envFailX ⟨db0, []⟩ coinX).db = db0
    ∧ coinX.mint ∈ (monitorNewCoins allOk (processNewCoin envFailX ⟨db0, []⟩ coinX)
        [coinX]).seen
    ∧ coinX.mint ∉ coinMints (monitorNewCoins allOk (processNewCoin envFailX ⟨db0, []⟩ coinX)
        [coinX]).db.coins
    ∧ alertsFor (monitorNewCoins allOk (processNewCoin envFailX ⟨db0, []⟩ coinX)
        [coinX]).db.alerts coinX.mint = alertsFor db0.alerts coinX.mint := by
  have h := (C10_failed_coin_never_retried envFailX ⟨db0, []⟩ coinX
    (by decide) (by decide)).1 (by decide)
  obtain ⟨ha, hb, hc⟩ := h
  obtain ⟨hd, he, hf⟩ := hc allOk [coinX]
  exact ⟨ha, hb, hd, he, hf⟩

-- ============================================================
-- C9 : the two seen-coin caches (realtime-creator.js / realtime.js)
-- ============================================================

/-- The filter phase of `scanNewCoins` (realtime-creator.js lines 71-77):
`coins.filter(c => { const isNew = !processedMints.has(c.mint); if (isNew)
processedMints.add(c.mint); return isNew })` — the cache is the only
deduplication consulted; storage is never queried. -/
def filterNewCoins (mints : List String) (coins : List Coin) : List String × List Coin :=
  coins.foldl
    (fun acc c => if c.mint ∈ acc.1 then acc else (acc.1 ++ [c.mint], acc.2 ++ [c]))
    (mints, [])

/-- End-of-scan cleanup (realtime-creator.js lines 119-123):
`if (processedMints.size > 1000) processedMints = new Set(mints.slice(-1000))`
— keep the 1000 most recently inserted mints. -/
def cleanupMints (s : List String) : List String :=
  if 1000 < s.length then s.drop (s.length - 1000) else s

/-- `scanNewCoins` (realtime-creator.js lines 56-127) reduced to its cache
management and coin selection: early return on an empty fetch or when every
coin is already cached (no cleanup in either case, but also no additions),
otherwise process the new coins and trim the cache. -/
def scanNewCoins (mints : List String) (coins : List Coin) : List String × List Coin :=
  if coins.isEmpty then (mints, [])
  else
    let fr := filterNewCoins mints coins
    if fr.2.isEmpty then (fr.1, [])
    else (cleanupMints fr.1, fr.2)

theorem filterNewCoins_aux (coins : List Coin) (s : List String) (l : List Coin) :
    ∃ k, (coins.foldl
        (fun acc c => if c.mint ∈ acc.1 then acc else (acc.1 ++ [c.mint], acc.2 ++ [c]))
        (s, l)).1.length = s.length + k
      ∧ (coins.foldl
        (fun acc c => if c.mint ∈ acc.1 then acc else (acc.1 ++ [c.mint], acc.2 ++ [c]))
        (s, l)).2.length = l.length + k := by
  induction coins generalizing s l with
  | nil => exact ⟨0, rfl, rfl⟩
  | cons c cs ih =>
    rw [List.foldl_cons]
    by_cases h : c.mint ∈ s
    · simpa [h] using ih s l
    · obtain ⟨k, hk1, hk2⟩ := ih (s ++ [c.mint]) (l ++ [c])
      refine ⟨k + 1, ?_, ?_⟩
      · simp only [if_neg h]
        rw [hk1, List.length_append, List.length_singleton]
        omega
      · simp only [if_neg h]
        rw [hk2, List.length_append, List.length_singleton]
        omega

theorem filterNewCoins_length (mints : List String) (coins : List Coin) :
    ∃ k, (filterNewCoins mints coins).1.length = mints.length + k
      ∧ (filterNewCoins mints coins).2.length = k := by
  obtain ⟨k, h1, h2⟩ := filterNewCoins_aux coins mints []
  exact ⟨k, h1, by simpa using h2⟩

theorem cleanupMints_length_le (s : List String) : (cleanupMints s).length ≤ 1000 := by
  unfold cleanupMints
  by_cases h : 1000 < s.length
  · rw [if_pos h, List.length_drop]
    omega
  · rw [if_neg h]
    omega

theorem cleanupMints_suffix (s : List String) :
    ∃ dropped, dropped ++ cleanupMints s = s := by
  unfold cleanupMints
  by_cases h : 1000 < s.length
  · rw [if_pos h]
    exact ⟨s.take (s.length - 1000), List.take_append_drop _ s⟩
  · rw [if_neg h]
    exact ⟨[], rfl⟩

theorem monitorNewCoins_seen_growth (env : OpOutcome) (st : MonitorState)
    (cs : List Coin) (hnd : (cs.map (fun c => c.mint)).Nodup)
    (hfresh : ∀ c ∈ cs, c.mint ∉ st.seen) :
    (monitorNewCoins env st cs).seen = st.seen ++ cs.map (fun c => c.mint) := by
  induction cs generalizing st with
  | nil => simp [monitorNewCoins]
  | cons c cs ih =>
    rw [monitorNewCoins_cons]
    have h1 : c.mint ∉ st.seen := hfresh c (List.mem_cons_self c cs)
    have hseen' : (processNewCoin env st c).seen = st.seen ++ [c.mint] :=
      processNewCoin_seen_of_not_mem h1
    rw [List.map_cons] at hnd ⊢
    have hnd' := (List.nodup_cons.mp hnd).2
    have hhd := (List.nodup_cons.mp hnd).1
    have hfresh' : ∀ c' ∈ cs, c'.mint ∉ (processNewCoin env st c).seen := by
      intro c' hc' hmem
      rw [hseen'] at hmem
      rcases List.mem_append.mp hmem with hm | hm
      · exact hfresh c' (List.mem_cons_of_mem c hc') hm
      · rw [List.mem_singleton] at hm
        exact hhd (hm ▸ List.mem_map.mpr ⟨c', hc', rfl⟩)
    rw [ih (processNewCoin env st c) hnd' hfresh', hseen', List.append_assoc]
    rfl

/-- Mint string of length `i`: pairwise distinct across `i`. -/
def natMint (i : Nat) : String := String.mk (List.replicate i 'a')

/-- A fresh coin record with the length-indexed mint. -/
def freshCoinN (i : Nat) : Coin :=
  { mint := natMint i, symbol := "S", name := none, description := none,
    image_uri := none, creator := "dev", created_timestamp := 0,
    complete := false, usd_market_cap := none, bonding_curve := none }

theorem natMint_inj : Function.Injective natMint := by
  intro i j h
  have h2 : List.replicate i 'a' = List.replicate j 'a' := congrArg String.data h
  have h3 := congrArg List.length h2
  simpa using h3

/-- C9 counterexample: `seenCoins` in realtime.js is never trimmed.  A single
completed scan over 1001 distinct fresh coins leaves 1001 entries in the
monitor's seen-coin set, exceeding the claimed 1000-entry bound. -/
theorem C9_monitor_seen_set_unbounded :
    1000 < (monitorNewCoins allOk ⟨db0, []⟩ ((List.range 1001).map freshCoinN)).seen.length := by
  have hmap : ((List.range 1001).map freshCoinN).map (fun c => c.mint)
      = (List.range 1001).map natMint := by
    rw [List.map_map]
    rfl
  have hnd : (((List.range 1001).map freshCoinN).map (fun c => c.mint)).Nodup := by
    rw [hmap]
    exact (List.nodup_range 1001).map natMint_inj
  have hfresh : ∀ c ∈ (List.range 1001).map freshCoinN,
      c.mint ∉ (⟨db0, []⟩ : MonitorState).seen := by
    intro c _ hm
    simp at hm
  rw [monitorNewCoins_seen_growth allOk ⟨db0, []⟩ _ hnd hfresh]
  simp

/-- C9 corrected: the repository has two new-coin loops.  In the
creator-scanner loop (realtime-creator.js) the cache IS capped — a completed
scan starting from at most 1000 cached mints ends with at most 1000, and the
trim keeps a suffix of the insertion order (evicting the oldest entries,
down to exactly 1000) — but deduplication consults only this cache: a coin
whose mint is absent from the cache is selected for processing again
regardless of what storage holds.  In the developer-monitor loop
(realtime.js) the storage existence check is authoritative, but `seenCoins`
is never trimmed: a scan over fresh distinct mints grows it by one entry per
coin, without bound. -/
theorem C9_cache_bound_amended :
    (∀ (mints : List String) (coins : List Coin), mints.length ≤ 1000 →
        (scanNewCoins mints coins).1.length ≤ 1000)
    ∧ (∀ s : List String, (∃ dropped, dropped ++ cleanupMints s = s)
        ∧ (1000 < s.length → (cleanupMints s).length = 1000))
    ∧ (∀ (mints : List String) (c : Coin), c.mint ∉ mints →
        (scanNewCoins mints [c]).2 = [c])
    ∧ (∀ (env : OpOutcome) (st : MonitorState) (cs : List Coin),
        (cs.map (fun c => c.mint)).Nodup →
        (∀ c ∈ cs, c.mint ∉ st.seen) →
        (monitorNewCoins env st cs).seen = st.seen ++ cs.map (fun c => c.mint)) := by
  refine ⟨?_, ?_, ?_, monitorNewCoins_seen_growth⟩
  · intro mints coins hle
    unfold scanNewCoins
    by_cases he : coins.isEmpty
    · rw [if_pos he]
      exact hle
    · rw [if_neg he]
      by_cases hn : (filterNewCoins mints coins).2.isEmpty
      · rw [if_pos hn]
        obtain ⟨k, hk1, hk2⟩ := filterNewCoins_length mints coins
        have hz : (filterNewCoins mints coins).2.length = 0 := by
          rw [List.isEmpty_iff] at hn
          rw [hn]
          rfl
        show (filterNewCoins mints coins).1.length ≤ 1000
        omega
      · rw [if_neg hn]
        exact cleanupMints_length_le _
  · intro s
    refine ⟨cleanupMints_suffix s, ?_⟩
    intro h
    unfold cleanupMints
    rw [if_pos h, List.length_drop]
    omega
  · intro mints c h
    simp [scanNewCoins, filterNewCoins, h]

/-- Witness for C9's amended statement at concrete inputs: an empty cache
stays within the bound after scanning one coin, the un-cached coin is
selected for processing, and one scan of the developer monitor over the
single fresh coin `coinX` appends exactly its mint to `seenCoins`. -/
theorem C9_cache_bound_amended_witness :
    (scanNewCoins [] [coinX]).1.length ≤ 1000
    ∧ (scanNewCoins [] [coinX]).2 = [coinX]
    ∧ (1000 < ["a", "b"].length → (cleanupMints ["a", "b"]).length = 1000)
    ∧ (monitorNewCoins allOk ⟨db0, []⟩ [coinX]).seen
        = [] ++ [coinX].map (fun c => c.mint) :=
  ⟨C9_cache_bound_amended.1 [] [coinX] (by decide),
   C9_cache_bound_amended.2.2.1 [] coinX (by decide),
   (C9_cache_bound_amended.2.1 ["a", "b"]).2,
   C9_cache_bound_amended.2.2.2 allOk ⟨db0, []⟩ [coinX] (by decide) (by decide)⟩

-- ============================================================
-- C3 : the migration polling loop (realtime.js, `monitorMigrations`)
-- ============================================================

theorem find?_map_mint (t : List CoinRow) (c : Coin) (h : ∃ r ∈ t, r.mint = c.mint) :
    ∃ r0 ∈ t, r0.mint = c.mint ∧
      (t.map (fun r => if r.mint = c.mint then applyCoinUpdate r c else r)).find?
        (fun r => r.mint == c.mint) = some (applyCoinUpdate r0 c) := by
  induction t with
  | nil => simp at h
  | cons r t ih =>
    by_cases hr : r.mint = c.mint
    · refine ⟨r, List.mem_cons_self r t, hr, ?_⟩
      rw [List.map_cons, if_pos hr]
      exact List.find?_cons_of_pos _ (by simp [applyCoinUpdate_mint, hr])
    · have h' : ∃ r' ∈ t, r'.mint = c.mint := by
        rcases h with ⟨r', hm, he⟩
        rcases List.mem_cons.mp hm with rfl | hm'
        · exact absurd he hr
        · exact ⟨r', hm', he⟩
      obtain ⟨r0, hm, he, hfind⟩ := ih h'
      refine ⟨r0, List.mem_cons_of_mem r hm, he, ?_⟩
      rw [List.map_cons, if_neg hr]
      rw [List.find?_cons_of_neg _ (by simp [hr])]
      exact hfind

theorem getCoinByMint_upsert_self (t : List CoinRow) (c : Coin) :
    ∃ row, getCoinByMint (upsertCoin t c) c.mint = some row
      ∧ row.is_migrated = c.complete := by
  by_cases hex : ∃ r ∈ t, r.mint = c.mint
  · obtain ⟨r0, _, _, hfind⟩ := find?_map_mint t c hex
    rw [upsertCoin_pos hex]
    exact ⟨applyCoinUpdate r0 c, hfind, rfl⟩
  · rw [upsertCoin_neg hex]
    unfold getCoinByMint
    have hnone : t.find? (fun r => r.mint == c.mint) = none :=
      List.find?_eq_none.mpr (fun r hr hb => hex ⟨r, hr, by simpa using hb⟩)
    rw [List.find?_append, hnone, Option.none_or]
    exact ⟨insertRowOfCoin c, List.find?_cons_of_pos _ (by simp [insertRowOfCoin]), rfl⟩

/-- One iteration of the `for (const coin of recentMigrated)` loop of
`monitorMigrations` (realtime.js lines 150-176): upsert the coin FIRST, then
read it back and skip when the stored row is migrated; otherwise insert a
migration row and call `updateDeveloper` (the spec's `Recompute`) for the
creator.  The second state component is the log of creators for which
`updateDeveloper` was invoked (its own database effect is the separate
`updateDeveloper`; C3 observes whether the call happens at all). -/
def migStep (st : DB × List String) (c : Coin) : DB × List String :=
  let db1 : DB := { st.1 with coins := upsertCoin st.1.coins c }
  match getCoinByMint db1.coins c.mint with
  | some row =>
    if row.is_migrated then (db1, st.2)
    else
      let db2 : DB := { db1 with
        migrations := insertMigration db1.migrations c.mint c.creator c.created_timestamp }
      (db2, st.2 ++ [c.creator])
  | none => (db1, st.2)

/-- One scan of `monitorMigrations` over the fetched recent migrated coins. -/
def monitorMigrations (db : DB) (fetched : List Coin) : DB × List String :=
  fetched.foldl migStep (db, [])

theorem migStep_complete (st : DB × List String) (c : Coin) (h : c.complete = true) :
    migStep st c = ({ st.1 with coins := upsertCoin st.1.coins c }, st.2) := by
  obtain ⟨row, hrow, hmig⟩ := getCoinByMint_upsert_self st.1.coins c
  unfold migStep
  simp only []
  rw [show getCoinByMint (upsertCoin st.1.coins c) c.mint = some row from hrow]
  simp [hmig, h]

theorem monitorMigrations_complete_aux (cs : List Coin) (st : DB × List String)
    (h : ∀ c ∈ cs, c.complete = true) :
    (cs.foldl migStep st).1.migrations = st.1.migrations
    ∧ (cs.foldl migStep st).1.alerts = st.1.alerts
    ∧ (cs.foldl migStep st).1.developers = st.1.developers
    ∧ (cs.foldl migStep st).2 = st.2 := by
  induction cs generalizing st with
  | nil => exact ⟨rfl, rfl, rfl, rfl⟩
  | cons c cs ih =>
    rw [List.foldl_cons, migStep_complete st c (h c (List.mem_cons_self c cs))]
    exact ih _ (fun c' hc' => h c' (List.mem_cons_of_mem c hc'))

/-- C3 is a code bug: the loop upserts the coin before the already-migrated
check, and the upsert itself marks any `complete = true` coin as migrated,
so the check always fires.  For every fetched coin with `complete = true`
(which is all the migrated-coins feed returns) the iteration records no
MigrationEvent and never calls `Recompute`; a whole scan over such coins
leaves `migrations` untouched and invokes `updateDeveloper` for no creator —
the loop's "New migration detected" branch is unreachable for them. -/
theorem C3_migration_loop_never_records (db : DB) (fetched : List Coin)
    (h : ∀ c ∈ fetched, c.complete = true) :
    (monitorMigrations db fetched).1.migrations = db.migrations
    ∧ (monitorMigrations db fetched).2 = []
    ∧ ∀ (st : DB × List String) (c : Coin), c.complete = true →
        migStep st c = ({ st.1 with coins := upsertCoin st.1.coins c }, st.2) := by
  obtain ⟨h1, _, _, h4⟩ := monitorMigrations_complete_aux fetched (db, []) h
  exact ⟨h1, h4, fun st c hc => migStep_complete st c hc⟩

/-- Witness for C3: a fresh migrated coin (`coinX`, `complete = true`,
absent from the empty database) is processed by a scan that records no
migration row and updates no developer. -/
theorem C3_migration_loop_never_records_witness :
    (monitorMigrations db0 [coinX]).1.migrations = db0.migrations
    ∧ (monitorMigrations db0 [coinX]).2 = [] :=
  ⟨(C3_migration_loop_never_records db0 [coinX] (by decide)).1,
   (C3_migration_loop_never_records db0 [coinX] (by decide)).2.1⟩

-- ============================================================
-- C4 : Recompute (developer.js `updateDeveloper`,
--      creator-tracker.js `updateCreatorStats`)
-- ============================================================

/-- Round a rate to two decimals, half-up: Postgres `ROUND(x, 2)` and JS
`parseFloat(x.toFixed(2))` at exact-rational spec precision. -/
def round2 (q : ℚ) : ℚ := (⌊q * 100 + 1 / 2⌋ : ℤ) / 100

/-- First element with maximal key, in list order: models both the stable
descending sort followed by taking index 0 (developer.js lines 29-38) and
SQL `ORDER BY created_timestamp DESC LIMIT 1` (creator-tracker.js). -/
def firstMaxBy {α : Type} (key : α → Int) (l : List α) : Option α :=
  l.foldl
    (fun acc c =>
      match acc with
      | none => some c
      | some b => if key b < key c then some c else some b) none

theorem firstMaxBy_go {α : Type} (key : α → Int) (l : List α) (b : α) :
    ∃ b', l.foldl
        (fun acc c =>
          match acc with
          | none => some c
          | some b => if key b < key c then some c else some b) (some b) = some b'
      ∧ (b' = b ∨ b' ∈ l) ∧ key b ≤ key b' ∧ ∀ x ∈ l, key x ≤ key b' := by
  induction l generalizing b with
  | nil => exact ⟨b, rfl, Or.inl rfl, le_refl _, by simp⟩
  | cons c l ih =>
    rw [List.foldl_cons]
    by_cases hlt : key b < key c
    · simp only [if_pos hlt]
      obtain ⟨b', hfold, hmem, hle, hall⟩ := ih c
      refine ⟨b', hfold, ?_, le_of_lt (lt_of_lt_of_le hlt hle), ?_⟩
      · rcases hmem with rfl | hm
        · exact Or.inr (List.mem_cons_self _ _)
        · exact Or.inr (List.mem_cons_of_mem _ hm)
      · intro x hx
        rcases List.mem_cons.mp hx with rfl | hx'
        · exact hle
        · exact hall x hx'
    · simp only [if_neg hlt]
      obtain ⟨b', hfold, hmem, hle, hall⟩ := ih b
      refine ⟨b', hfold, ?_, hle, ?_⟩
      · rcases hmem with rfl | hm
        · exact Or.inl rfl
        · exact Or.inr (List.mem_cons_of_mem _ hm)
      · intro x hx
        rcases List.mem_cons.mp hx with rfl | hx'
        · exact le_trans (le_of_not_lt hlt) hle
        · exact hall x hx'

theorem firstMaxBy_spec {α : Type} (key : α → Int) (l : List α) :
    (l = [] ∧ firstMaxBy key l = none)
    ∨ ∃ b, firstMaxBy key l = some b ∧ b ∈ l ∧ ∀ x ∈ l, key x ≤ key b := by
  cases l with
  | nil => exact Or.inl ⟨rfl, rfl⟩
  | cons c l =>
    right
    unfold firstMaxBy
    rw [List.foldl_cons]
    obtain ⟨b', hfold, hmem, hle, hall⟩ := firstMaxBy_go key l c
    refine ⟨b', hfold, ?_, ?_⟩
    · rcases hmem with rfl | hm
      · exact List.mem_cons_self _ _
      · exact List.mem_cons_of_mem _ hm
    · intro x hx
      rcases List.mem_cons.mp hx with rfl | hx'
      · exact hle
      · exact hall x hx'

/-- The statistics record computed by `updateDeveloper`. -/
structure DevStats where
  totalCoins : Nat
  migrationCount : Nat
  migrationRate : ℚ
  lastMigratedCoin : Option Coin
  deriving DecidableEq

/-- The statistics computation of `updateDeveloper` (developer.js lines
21-47), identical in `calculateDeveloperStats` (lines 103-129): counts and a
rounded rate over the fetched coin list, and the most recently created
MIGRATED coin (not the most recently created coin overall). -/
def devStatsOf (coins : List Coin) : DevStats :=
  let migrated := coins.filter (fun c => c.complete)
  { totalCoins := coins.length
    migrationCount := migrated.length
    migrationRate :=
      if 0 < coins.length then
        round2 ((migrated.length : ℚ) / (coins.length : ℚ) * 100)
      else 0
    lastMigratedCoin := firstMaxBy (fun c => c.created_timestamp) migrated }

/-- `updateDeveloper` (developer.js lines 9-64): fetch the creator's complete
coin list FROM THE UPSTREAM FEED (`fetchAllUserCoins`), compute statistics
over that fetched list (the Statistics Store is not read), upsert the
developer row, then upsert every fetched coin.  When the fetch returns no
coins the function returns `null` early and writes nothing. -/
def updateDeveloper (db : DB) (fetched : List Coin) (address : String) : DB :=
  if fetched.isEmpty then db
  else
    let s := devStatsOf fetched
    let row : DevRow :=
      { address := address
        total_coins := s.totalCoins
        migration_count := s.migrationCount
        migration_rate := s.migrationRate
        last_migrated_coin_symbol := s.lastMigratedCoin.map (fun c => c.symbol)
        last_migrated_coin_mint := s.lastMigratedCoin.map (fun c => c.mint)
        last_migrated_timestamp := s.lastMigratedCoin.map (fun c => c.created_timestamp) }
    let db1 : DB := { db with developers := upsertDeveloper db.developers row }
    { db1 with coins := bulkUpsertCoins db1.coins fetched }

/-- Row of the creator-pipeline `coins` table (schema-creator.sql), the
columns `updateCreatorStats` reads. -/
structure SCoinRow where
  mint : String
  symbol : String
  creator_twitter_handle : Option String
  created_timestamp : Int
  is_migrated : Bool
  deriving DecidableEq

/-- The creator columns written by `updateCreatorStats`'s single UPDATE. -/
structure SCreatorStats where
  total_coins : Nat
  migrated_coins : Nat
  success_rate : ℚ
  last_coin_mint : Option String
  last_coin_symbol : Option String
  last_coin_created_at : Option Int
  deriving DecidableEq

/-- `updateCreatorStats` (creator-tracker.js lines 182-235): one UPDATE whose
correlated subqueries read the coins attributed to the handle from the
store: `total_coins = COUNT(*)`, `migrated_coins = COUNT(*) WHERE
is_migrated`, `success_rate = CASE WHEN COUNT(*)=0 THEN 0 ELSE
ROUND(COUNT(*) FILTER (WHERE is_migrated)::DECIMAL / COUNT(*) * 100, 2)`,
and the three `last_coin_*` columns from `ORDER BY created_timestamp DESC
LIMIT 1`. -/
def updateCreatorStats (coins : List SCoinRow) (handle : String) : SCreatorStats :=
  let mine := coins.filter (fun r => r.creator_twitter_handle == some handle)
  let lastCoin := firstMaxBy (fun r => r.created_timestamp) mine
  { total_coins := mine.length
    migrated_coins :=
      (coins.filter
        (fun r => r.creator_twitter_handle == some handle && r.is_migrated)).length
    success_rate :=
      if mine.length = 0 then 0
      else round2 (((mine.filter (fun r => r.is_migrated)).length : ℚ)
          / (mine.length : ℚ) * 100)
    last_coin_mint := lastCoin.map (fun r => r.mint)
    last_coin_symbol := lastCoin.map (fun r => r.symbol)
    last_coin_created_at := lastCoin.map (fun r => r.created_timestamp) }

theorem sFilter_combined (coins : List SCoinRow) (handle : String) :
    coins.filter (fun r => r.creator_twitter_handle == some handle && r.is_migrated)
      = (coins.filter (fun r => r.creator_twitter_handle == some handle)).filter
          (fun r => r.is_migrated) := by
  rw [List.filter_filter]
  exact List.filter_congr (fun a _ => by rw [Bool.and_comm])

/-- Modelled from the spec's words, for refinement comparison only: the
claim's `lastCoin`, "the coin with the maximum creation timestamp" among all
of the creator's coins (not only the migrated ones). -/
def specRecomputeLastCoin (coins : List Coin) : Option Coin :=
  firstMaxBy (fun c => c.created_timestamp) coins

/-- A migrated coin by creator "Z", created at time 1. -/
def coinA : Coin :=
  { mint := "A", symbol := "A", name := none, description := none,
    image_uri := none, creator := "Z", created_timestamp := 1,
    complete := true, usd_market_cap := none, bonding_curve := none }

/-- A newer, non-migrated coin by the same creator, created at time 2. -/
def coinB : Coin :=
  { coinA with mint := "B", symbol := "B", created_timestamp := 2, complete := false }

/-- A coin by "Z" already present in the store but absent from the fetch. -/
def oldZRow : CoinRow :=
  insertRowOfCoin { coinA with mint := "OLD", symbol := "O", created_timestamp := 0 }

/-- A store that already attributes a coin to "Z". -/
def dbZ : DB := { developers := [], coins := [oldZRow], migrations := [], alerts := [] }

/-- C4 counterexample: `updateDeveloper` is not the claimed `Recompute`.
Its `lastCoin` is the newest MIGRATED coin (here `coinA`), not the coin with
the maximum creation timestamp (`coinB`); an empty fetch writes nothing
instead of zeroed statistics; and it computes `totalCoins` from the upstream
fetch, not from the coins attributed to the creator in the Statistics Store:
with one "Z" coin already stored and one fetched, it writes
`total_coins = 1` while the store then holds 2 coins attributed to "Z". -/
theorem C4_recompute_counterexample :
    (devStatsOf [coinA, coinB]).lastMigratedCoin = some coinA
    ∧ specRecomputeLastCoin [coinA, coinB] = some coinB
    ∧ coinA.mint ≠ coinB.mint
    ∧ updateDeveloper dbZ [] "Z" = dbZ
    ∧ (updateDeveloper dbZ [coinA] "Z").developers.map
        (fun d => (d.address, d.total_coins)) = [("Z", 1)]
    ∧ ((updateDeveloper dbZ [coinA] "Z").coins.filter
        (fun r => r.creator_address == "Z")).length = 2 := by
  refine ⟨by decide, by decide, by decide, rfl, by decide, by decide⟩

/-- C4 amended: `updateCreatorStats` satisfies the claim over the store
(counts, rounded rate, `migrated_coins ≤ total_coins`, last coin = the
attributed coin with maximal creation timestamp); `updateDeveloper`
satisfies the count/rate clauses over the upstream FETCH instead of the
store, its last-coin pointer ranges over migrated coins only, and an empty
fetch writes nothing. -/
theorem C4_recompute_amended :
    (∀ (coins : List SCoinRow) (handle : String),
      (updateCreatorStats coins handle).migrated_coins
          ≤ (updateCreatorStats coins handle).total_coins
      ∧ (updateCreatorStats coins handle).success_rate
          = (if (updateCreatorStats coins handle).total_coins = 0 then 0
             else round2 (((updateCreatorStats coins handle).migrated_coins : ℚ)
                / ((updateCreatorStats coins handle).total_coins : ℚ) * 100))
      ∧ (∀ m, (updateCreatorStats coins handle).last_coin_mint = some m →
          ∃ r ∈ coins, r.creator_twitter_handle = some handle ∧ r.mint = m
            ∧ ∀ r' ∈ coins, r'.creator_twitter_handle = some handle →
                r'.created_timestamp ≤ r.created_timestamp))
    ∧ (∀ fetched : List Coin,
      (devStatsOf fetched).migrationCount ≤ (devStatsOf fetched).totalCoins
      ∧ (devStatsOf fetched).migrationRate
          = (if (devStatsOf fetched).totalCoins = 0 then 0
             else round2 (((devStatsOf fetched).migrationCount : ℚ)
                / ((devStatsOf fetched).totalCoins : ℚ) * 100))
      ∧ (∀ b, (devStatsOf fetched).lastMigratedCoin = some b →
          b ∈ fetched ∧ b.complete = true
            ∧ ∀ x ∈ fetched, x.complete = true →
                x.created_timestamp ≤ b.created_timestamp))
    ∧ (∀ (db : DB) (address : String), updateDeveloper db [] address = db) := by
  refine ⟨?_, ?_, fun db address => rfl⟩
  · intro coins handle
    have hc := sFilter_combined coins handle
    refine ⟨?_, ?_, ?_⟩
    · show (coins.filter
          (fun r => r.creator_twitter_handle == some handle && r.is_migrated)).length
        ≤ (coins.filter (fun r => r.creator_twitter_handle == some handle)).length
      rw [hc]
      exact List.length_filter_le _ _
    · show (if (coins.filter (fun r => r.creator_twitter_handle == some handle)).length = 0
          then (0 : ℚ) else _) = _
      rw [show (updateCreatorStats coins handle).migrated_coins
          = (coins.filter
              (fun r => r.creator_twitter_handle == some handle && r.is_migrated)).length
          from rfl, hc]
      rfl
    · intro m hm
      rcases firstMaxBy_spec (fun r => r.created_timestamp)
          (coins.filter (fun r => r.creator_twitter_handle == some handle)) with
        ⟨_, hnone⟩ | ⟨b, hsome, hmem, hall⟩
      · rw [show (updateCreatorStats coins handle).last_coin_mint
            = (firstMaxBy (fun r => r.created_timestamp)
                (coins.filter (fun r => r.creator_twitter_handle == some handle))).map
                  (fun r => r.mint) from rfl, hnone] at hm
        exact absurd hm (by simp)
      · rw [show (updateCreatorStats coins handle).last_coin_mint
            = (firstMaxBy (fun r => r.created_timestamp)
                (coins.filter (fun r => r.creator_twitter_handle == some handle))).map
                  (fun r => r.mint) from rfl, hsome] at hm
        have hbm : b.mint = m := by simpa using hm
        obtain ⟨hbin, hbp⟩ := List.mem_filter.mp hmem
        refine ⟨b, hbin, by simpa using hbp, hbm, ?_⟩
        intro r' hr' hp'
        exact hall r' (List.mem_filter.mpr ⟨hr', by simpa using hp'⟩)
  · intro fetched
    refine ⟨?_, ?_, ?_⟩
    · show (fetched.filter (fun c => c.complete)).length ≤ fetched.length
      exact List.length_filter_le _ _
    · show (if 0 < fetched.length then
          round2 (((fetched.filter (fun c => c.complete)).length : ℚ)
            / (fetched.length : ℚ) * 100)
        else 0)
        = (if fetched.length = 0 then (0 : ℚ)
           else round2 (((fetched.filter (fun c => c.complete)).length : ℚ)
             / (fetched.length : ℚ) * 100))
      by_cases h : fetched.length = 0
      · rw [if_pos h, if_neg (by omega)]
      · rw [if_neg h, if_pos (by omega)]
    · intro b hb
      rcases firstMaxBy_spec (fun c => c.created_timestamp)
          (fetched.filter (fun c => c.complete)) with
        ⟨_, hnone⟩ | ⟨b', hsome, hmem, hall⟩
      · rw [show (devStatsOf fetched).lastMigratedCoin
            = firstMaxBy (fun c => c.created_timestamp)
                (fetched.filter (fun c => c.complete)) from rfl, hnone] at hb
        exact absurd hb (by simp)
      · rw [show (devStatsOf fetched).lastMigratedCoin
            = firstMaxBy (fun c => c.created_timestamp)
                (fetched.filter (fun c => c.complete)) from rfl, hsome] at hb
        obtain rfl : b' = b := by simpa using hb
        obtain ⟨hbin, hbp⟩ := List.mem_filter.mp hmem
        refine ⟨hbin, hbp, ?_⟩
        intro x hx hxc
        exact hall x (List.mem_filter.mpr ⟨hx, hxc⟩)

/-- A stored creator-pipeline coin attributed to "alice". -/
def srowM : SCoinRow :=
  { mint := "M", symbol := "MM", creator_twitter_handle := some "alice",
    created_timestamp := 7, is_migrated := true }

/-- Witness for C4's amended statement at concrete inputs. -/
theorem C4_recompute_amended_witness :
    (updateCreatorStats [srowM] "alice").migrated_coins
        ≤ (updateCreatorStats [srowM] "alice").total_coins
    ∧ (∃ r ∈ [srowM], r.creator_twitter_handle = some "alice" ∧ r.mint = "M"
        ∧ ∀ r' ∈ [srowM], r'.creator_twitter_handle = some "alice" →
            r'.created_timestamp ≤ r.created_timestamp)
    ∧ updateDeveloper db0 [] "devA" = db0 :=
  ⟨(C4_recompute_amended.1 [srowM] "alice").1,
   (C4_recompute_amended.1 [srowM] "alice").2.2 "M" (by decide),
   C4_recompute_amended.2.2 db0 "devA"⟩

-- ============================================================
-- C6 : historical backfill (historical.js `performHistoricalScan`,
--      pumpfun-api.js `fetchAllMigratedCoins`)
-- ============================================================

/-- The pagination loop of `fetchAllMigratedCoins` (pumpfun-api.js lines
116-146): `while (allCoins.length < maxCoins)` fetch the next page (limit
100); a thrown fetch propagates — there is no per-page catch; an empty page
breaks before pushing, a short page breaks after pushing.  Pages beyond the
provided list model an exhausted feed (an empty page). -/
def fetchGo (maxCoins : Nat) :
    List (Except Unit (List Coin)) → List Coin → Except Unit (List Coin)
  | [], acc => .ok acc
  | p :: rest, acc =>
    if maxCoins ≤ acc.length then .ok acc
    else
      match p with
      | .error e => .error e
      | .ok coins =>
        if coins.length = 0 then .ok acc
        else
          if coins.length < 100 then .ok (acc ++ coins)
          else fetchGo maxCoins rest (acc ++ coins)

/-- `fetchAllMigratedCoins` (pumpfun-api.js lines 116-146). -/
def fetchAllMigratedCoins (pages : List (Except Unit (List Coin)))
    (maxCoins : Nat) : Except Unit (List Coin) :=
  fetchGo maxCoins pages []

/-- Environment of the backfill: the page feed, per-item failure oracles for
the awaited store calls of steps 3-5, and the per-developer upstream coin
feed consumed by `updateDeveloper` in step 5. -/
structure ScanEnv where
  pages : List (Except Unit (List Coin))
  devUpsertOk : String → Bool
  coinUpsertOk : String → Bool
  migInsertOk : String → Bool
  updateDevOk : String → Bool
  userCoins : String → List Coin

/-- The counters reported by `performHistoricalScan`. -/
structure ScanStats where
  coinsScanned : Nat
  migrationsRecorded : Nat
  errors : Nat
  developersFound : List String
  deriving DecidableEq

/-- `[...new Set(xs)]`: first-occurrence deduplication in order. -/
def dedup (xs : List String) : List String :=
  xs.foldl (fun acc x => if x ∈ acc then acc else acc ++ [x]) []

/-- Step 3 of the backfill (historical.js lines 199-208): one zero-valued
developer record per distinct address, each creation guarded by try/catch. -/
def zeroDevRow (a : String) : DevRow :=
  { address := a, total_coins := 0, migration_count := 0,
    migration_rate := 0, last_migrated_coin_symbol := none,
    last_migrated_coin_mint := none, last_migrated_timestamp := none }

def histStep3 (env : ScanEnv) (acc : DB × Nat) (a : String) : DB × Nat :=
  if env.devUpsertOk a then
    ({ acc.1 with developers := upsertDeveloper acc.1.developers (zeroDevRow a) }, acc.2)
  else (acc.1, acc.2 + 1)

/-- Step 4 of the backfill (historical.js lines 213-231): upsert each coin
and, when `coin.complete`, record a migration event; a failure of either
call inside the item's try increments `errors` and skips the rest of the
item.  Accumulator: database, migrations recorded, errors. -/
def histStep4 (env : ScanEnv) (acc : DB × Nat × Nat) (c : Coin) : DB × Nat × Nat :=
  if env.coinUpsertOk c.mint then
    let db1 : DB := { acc.1 with coins := upsertCoin acc.1.coins c }
    if c.complete then
      if env.migInsertOk c.mint then
        ({ db1 with migrations :=
            insertMigration db1.migrations c.mint c.creator c.created_timestamp },
         acc.2.1 + 1, acc.2.2)
      else (db1, acc.2.1, acc.2.2 + 1)
    else (db1, acc.2.1, acc.2.2)
  else (acc.1, acc.2.1, acc.2.2 + 1)

/-- Step 5 of the backfill (historical.js lines 240-256): `updateDeveloper`
for every distinct address, guarded by try/catch.  Accumulator: database,
developers updated, errors. -/
def histStep5 (env : ScanEnv) (acc : DB × List String × Nat) (a : String) :
    DB × List String × Nat :=
  if env.updateDevOk a then
    (updateDeveloper acc.1 (env.userCoins a) a, acc.2.1 ++ [a], acc.2.2)
  else (acc.1, acc.2.1, acc.2.2 + 1)

/-- `performHistoricalScan` (historical.js lines 168-290): step 1 fetches all
migrated coins — a page failure propagates to the outer catch, which logs
and rethrows (line 288), aborting the backfill.  Steps 3-5 guard each item
individually. -/
def performHistoricalScan (env : ScanEnv) (maxCoins : Nat) (db : DB) :
    Except Unit (DB × ScanStats) :=
  match fetchAllMigratedCoins env.pages maxCoins with
  | .error e => .error e
  | .ok migratedCoins =>
    let addrs := dedup (migratedCoins.map (fun c => c.creator))
    let s3 := addrs.foldl (histStep3 env) (db, 0)
    let s4 := migratedCoins.foldl (histStep4 env) (s3.1, 0, s3.2)
    let s5 := addrs.foldl (histStep5 env) (s4.1, [], s4.2.2)
    .ok (s5.1,
      { coinsScanned := migratedCoins.length
        migrationsRecorded := s4.2.1
        errors := s5.2.2
        developersFound := s5.2.1 })

theorem upsertCoin_mem_mono {t : List CoinRow} {c : Coin} {m : String}
    (h : m ∈ coinMints t) : m ∈ coinMints (upsertCoin t c) := by
  by_cases hm : m = c.mint
  · exact hm ▸ mem_coinMints_upsert_self t c
  · exact (mem_coinMints_upsert hm).mpr h

theorem bulkUpsertCoins_mem_mono {t : List CoinRow} {cs : List Coin} {m : String}
    (h : m ∈ coinMints t) : m ∈ coinMints (bulkUpsertCoins t cs) := by
  induction cs generalizing t with
  | nil => exact h
  | cons c cs ih => exact ih (upsertCoin_mem_mono h)

theorem updateDeveloper_mem_mono {db : DB} {fetched : List Coin} {a m : String}
    (h : m ∈ coinMints db.coins) : m ∈ coinMints (updateDeveloper db fetched a).coins := by
  unfold updateDeveloper
  by_cases he : fetched.isEmpty
  · rw [if_pos he]
    exact h
  · rw [if_neg he]
    exact bulkUpsertCoins_mem_mono h

theorem histStep4_mem_mono (env : ScanEnv) (acc : DB × Nat × Nat) (c : Coin)
    {m : String} (h : m ∈ coinMints acc.1.coins) :
    m ∈ coinMints (histStep4 env acc c).1.coins := by
  unfold histStep4
  by_cases h1 : env.coinUpsertOk c.mint
  · rw [if_pos h1]
    by_cases h2 : c.complete
    · by_cases h3 : env.migInsertOk c.mint
      · simp only [h2, if_true, h3]
        exact upsertCoin_mem_mono h
      · simp only [h2, if_true, h3]
        exact upsertCoin_mem_mono h
    · simp only [h2]
      simpa using upsertCoin_mem_mono h
  · rw [if_neg h1]
    exact h

theorem histStep4_err_mono (env : ScanEnv) (acc : DB × Nat × Nat) (c : Coin) :
    acc.2.2 ≤ (histStep4 env acc c).2.2 := by
  unfold histStep4
  by_cases h1 : env.coinUpsertOk c.mint
  · rw [if_pos h1]
    by_cases h2 : c.complete
    · by_cases h3 : env.migInsertOk c.mint
      · simp [h2, h3]
      · simp [h2, h3]
    · simp [h2]
  · rw [if_neg h1]
    simp

theorem histStep4_adds (env : ScanEnv) (acc : DB × Nat × Nat) (c : Coin)
    (h : env.coinUpsertOk c.mint = true) :
    c.mint ∈ coinMints (histStep4 env acc c).1.coins := by
  unfold histStep4
  rw [if_pos h]
  by_cases h2 : c.complete
  · by_cases h3 : env.migInsertOk c.mint
    · simp only [h2, if_true, h3]
      exact mem_coinMints_upsert_self _ _
    · simp only [h2, if_true, h3]
      exact mem_coinMints_upsert_self _ _
  · simp only [h2]
    simpa using mem_coinMints_upsert_self acc.1.coins c

theorem histStep4_fail (env : ScanEnv) (acc : DB × Nat × Nat) (c : Coin)
    (h : env.coinUpsertOk c.mint = false) :
    (histStep4 env acc c).2.2 = acc.2.2 + 1 := by
  unfold histStep4
  rw [if_neg (by simp [h])]

theorem hist4_fold_mem_mono (env : ScanEnv) (cs : List Coin) (acc : DB × Nat × Nat)
    {m : String} (h : m ∈ coinMints acc.1.coins) :
    m ∈ coinMints (cs.foldl (histStep4 env) acc).1.coins := by
  induction cs generalizing acc with
  | nil => exact h
  | cons c cs ih => exact ih _ (histStep4_mem_mono env acc c h)

theorem hist4_fold_err_mono (env : ScanEnv) (cs : List Coin) (acc : DB × Nat × Nat) :
    acc.2.2 ≤ (cs.foldl (histStep4 env) acc).2.2 := by
  induction cs generalizing acc with
  | nil => exact le_refl _
  | cons c cs ih => exact le_trans (histStep4_err_mono env acc c) (ih _)

theorem hist4_fold_adds (env : ScanEnv) (cs : List Coin) (acc : DB × Nat × Nat)
    {c : Coin} (hc : c ∈ cs) (hok : env.coinUpsertOk c.mint = true) :
    c.mint ∈ coinMints (cs.foldl (histStep4 env) acc).1.coins := by
  induction cs generalizing acc with
  | nil => simp at hc
  | cons c' cs ih =>
    rcases List.mem_cons.mp hc with rfl | hc'
    · rw [List.foldl_cons]
      exact hist4_fold_mem_mono env cs _ (histStep4_adds env acc c hok)
    · rw [List.foldl_cons]
      exact ih _ hc'

theorem hist4_fold_err_pos (env : ScanEnv) (cs : List Coin) (acc : DB × Nat × Nat)
    (h : ∃ c ∈ cs, env.coinUpsertOk c.mint = false) :
    acc.2.2 < (cs.foldl (histStep4 env) acc).2.2 := by
  induction cs generalizing acc with
  | nil => simp at h
  | cons c' cs ih =>
    rcases h with ⟨c, hc, hfail⟩
    rcases List.mem_cons.mp hc with rfl | hc'
    · rw [List.foldl_cons]
      have h1 : (histStep4 env acc c).2.2 = acc.2.2 + 1 := histStep4_fail env acc c hfail
      have h2 := hist4_fold_err_mono env cs (histStep4 env acc c)
      omega
    · rw [List.foldl_cons]
      exact lt_of_le_of_lt (histStep4_err_mono env acc c') (ih _ ⟨c, hc', hfail⟩)

theorem histStep5_mem_mono (env : ScanEnv) (acc : DB × List String × Nat) (a : String)
    {m : String} (h : m ∈ coinMints acc.1.coins) :
    m ∈ coinMints (histStep5 env acc a).1.coins := by
  unfold histStep5
  by_cases h1 : env.updateDevOk a
  · rw [if_pos h1]
    exact updateDeveloper_mem_mono h
  · rw [if_neg h1]
    exact h

theorem histStep5_err_mono (env : ScanEnv) (acc : DB × List String × Nat) (a : String) :
    acc.2.2 ≤ (histStep5 env acc a).2.2 := by
  unfold histStep5
  by_cases h1 : env.updateDevOk a
  · rw [if_pos h1]
  · rw [if_neg h1]
    simp

theorem hist5_fold_mem_mono (env : ScanEnv) (as : List String)
    (acc : DB × List String × Nat) {m : String} (h : m ∈ coinMints acc.1.coins) :
    m ∈ coinMints (as.foldl (histStep5 env) acc).1.coins := by
  induction as generalizing acc with
  | nil => exact h
  | cons a as ih => exact ih _ (histStep5_mem_mono env acc a h)

theorem hist5_fold_err_mono (env : ScanEnv) (as : List String)
    (acc : DB × List String × Nat) :
    acc.2.2 ≤ (as.foldl (histStep5 env) acc).2.2 := by
  induction as generalizing acc with
  | nil => exact le_refl _
  | cons a as ih => exact le_trans (histStep5_err_mono env acc a) (ih _)

/-- A full page: 100 coins, exactly the page limit, so pagination continues. -/
def fullPage : List Coin := List.replicate 100 coinA

/-- A five-page feed whose second page throws; every store call succeeds. -/
def envPageFail : ScanEnv :=
  { pages := [.ok fullPage, .error (), .ok fullPage, .ok fullPage, .ok [coinB]]
    devUpsertOk := fun _ => true
    coinUpsertOk := fun _ => true
    migInsertOk := fun _ => true
    updateDevOk := fun _ => true
    userCoins := fun _ => [] }

/-- C6 counterexample: with one page out of five throwing, the backfill does
NOT complete and process the other four pages — `fetchAllMigratedCoins` has
no per-page catch, so the page error propagates, and `performHistoricalScan`
rethrows it (historical.js line 288): the whole backfill aborts with no
reported counters. -/
theorem C6_backfill_aborts_on_page_failure :
    fetchAllMigratedCoins envPageFail.pages 10000 = .error ()
    ∧ performHistoricalScan envPageFail 10000 db0 = .error () := by
  exact ⟨rfl, rfl⟩

/-- C6 amended: per-ITEM failures never abort the backfill — whenever the
page fetch succeeds the scan completes with a result, every successfully
upserted fetched coin reaches the final store even when other items fail,
and any failing item makes the reported error count positive.  But there is
no per-PAGE resilience: a throwing page aborts the entire backfill. -/
theorem C6_backfill_resilience_amended :
    (∀ (env : ScanEnv) (maxCoins : Nat) (db : DB) (coins : List Coin),
      fetchAllMigratedCoins env.pages maxCoins = .ok coins →
      ∃ db' stats, performHistoricalScan env maxCoins db = .ok (db', stats)
        ∧ stats.coinsScanned = coins.length
        ∧ (∀ c ∈ coins, env.coinUpsertOk c.mint = true → c.mint ∈ coinMints db'.coins)
        ∧ ((∃ c ∈ coins, env.coinUpsertOk c.mint = false) → 0 < stats.errors))
    ∧ (∀ (env : ScanEnv) (maxCoins : Nat) (db : DB),
      fetchAllMigratedCoins env.pages maxCoins = .error () →
      performHistoricalScan env maxCoins db = .error ()) := by
  constructor
  · intro env maxCoins db coins hfetch
    unfold performHistoricalScan
    rw [hfetch]
    refine ⟨_, _, rfl, rfl, ?_, ?_⟩
    · intro c hc hok
      exact hist5_fold_mem_mono env _ _ (hist4_fold_adds env coins _ hc hok)
    · intro hfail
      have h1 := hist4_fold_err_pos env coins
        (((dedup (coins.map (fun c => c.creator))).foldl (histStep3 env) (db, 0)).1, 0,
         ((dedup (coins.map (fun c => c.creator))).foldl (histStep3 env) (db, 0)).2) hfail
      have h2 := hist5_fold_err_mono env (dedup (coins.map (fun c => c.creator)))
        ((coins.foldl (histStep4 env)
            (((dedup (coins.map (fun c => c.creator))).foldl (histStep3 env) (db, 0)).1, 0,
             ((dedup (coins.map (fun c => c.creator))).foldl (histStep3 env) (db, 0)).2)).1,
         [],
         (coins.foldl (histStep4 env)
            (((dedup (coins.map (fun c => c.creator))).foldl (histStep3 env) (db, 0)).1, 0,
             ((dedup (coins.map (fun c => c.creator))).foldl (histStep3 env) (db, 0)).2)).2.2)
      simp only [] at h1 h2 ⊢
      omega
  · intro env maxCoins db herr
    unfold performHistoricalScan
    rw [herr]

/-- A single short page of two coins; persisting mint "B" throws. -/
def envOneFail : ScanEnv :=
  { pages := [.ok [coinA, coinB]]
    devUpsertOk := fun _ => true
    coinUpsertOk := fun m => !(m == "B")
    migInsertOk := fun _ => true
    updateDevOk := fun _ => true
    userCoins := fun _ => [] }

/-- Witness for C6's amended statement: the two-coin backfill with one
failing item completes, scans both coins, stores the good one, and reports a
positive error count. -/
theorem C6_backfill_resilience_amended_witness :
    ∃ db' stats, performHistoricalScan envOneFail 10000 db0 = .ok (db', stats)
      ∧ stats.coinsScanned = [coinA, coinB].length
      ∧ (∀ c ∈ [coinA, coinB], envOneFail.coinUpsertOk c.mint = true →
          c.mint ∈ coinMints db'.coins)
      ∧ ((∃ c ∈ [coinA, coinB], envOneFail.coinUpsertOk c.mint = false) →
          0 < stats.errors) :=
  C6_backfill_resilience_amended.1 envOneFail 10000 db0 [coinA, coinB] (by rfl)

-- ============================================================
-- C8 : identity resolution priority (metadata-parser.js,
--      twitter-api.js, creator-tracker.js)
-- ============================================================

/-- JS `\w`: ASCII letters, digits, underscore. -/
def isWordChar (ch : Char) : Bool := ch.isAlphanum || ch = '_'

/-- Consume an exact literal prefix, returning the rest. -/
def stripLit : List Char → List Char → Option (List Char)
  | [], l => some l
  | _ :: _, [] => none
  | p :: ps, ch :: l => if ch = p then stripLit ps l else none

/-- Greedy `+` over a character class: succeeds on one or more matching
characters, returning the consumed run and the rest. -/
def many1 (p : Char → Bool) : List Char → Option (List Char × List Char)
  | [] => none
  | ch :: l => if p ch then some ((ch :: l).takeWhile p, (ch :: l).dropWhile p) else none

/-- The alternation `(?:twitter\.com|x\.com)\/` as a literal prefix. -/
def hostStrip (l : List Char) : Option (List Char) :=
  match stripLit "twitter.com/".data l with
  | some l1 => some l1
  | none => stripLit "x.com/".data l

/-- The tweet-URL pattern `(?:twitter\.com|x\.com)\/\w+\/status\/(\d+)`
tried at one position, returning the captured digit run (shared by
metadata-parser.js line 148 and `extractTweetId`, twitter-api.js line 62;
greedy matching without backtracking is exact here because `/` is not a word
character). -/
def tweetAt (l : List Char) : Option (List Char) :=
  match hostStrip l with
  | none => none
  | some l1 =>
    match many1 isWordChar l1 with
    | none => none
    | some (_, l2) =>
      match stripLit "/status/".data l2 with
      | none => none
      | some l3 =>
        match many1 Char.isDigit l3 with
        | none => none
        | some (ds, _) => some ds

/-- Try a positional pattern at every suffix: JS unanchored `match`. -/
def searchPos {β : Type} (f : List Char → Option β) : List Char → Option β
  | [] => f []
  | l@(_ :: rest) =>
    match f l with
    | some b => some b
    | none => searchPos f rest

/-- The whole-string tweet search with its digit capture. -/
def tweetSearch (s : String) : Option (List Char) := searchPos tweetAt s.data

/-- metadata-parser.js line 148: does the field contain a tweet URL. -/
def isTweetUrl (s : String) : Bool := (tweetSearch s).isSome

/-- `extractTweetId` (twitter-api.js lines 59-64): the captured digits. -/
def extractTweetId (s : String) : Option String :=
  (tweetSearch s).map (fun ds => String.mk ds)

/-- The community pattern `(?:twitter\.com|x\.com)\/i\/communities\/\d+`
tried at one position (metadata-parser.js line 155). -/
def communityAt (l : List Char) : Option Unit :=
  match hostStrip l with
  | none => none
  | some l1 =>
    match stripLit "i/communities/".data l1 with
    | none => none
    | some l2 =>
      match many1 Char.isDigit l2 with
      | none => none
      | some _ => some ()

/-- metadata-parser.js line 155: does the field contain a community URL. -/
def isCommunityUrl (s : String) : Bool := (searchPos communityAt s.data).isSome

/-- The profile fallback `(?:twitter\.com|x\.com)\/\w+\/?$` tried at one
position (metadata-parser.js line 163): anchored at the end. -/
def profileAt (l : List Char) : Option Unit :=
  match hostStrip l with
  | none => none
  | some l1 =>
    match many1 isWordChar l1 with
    | none => none
    | some (_, l2) => if l2 = [] ∨ l2 = ['/'] then some () else none

/-- metadata-parser.js line 163: is the field a bare profile URL. -/
def isProfileUrl (s : String) : Bool := (searchPos profileAt s.data).isSome

/-- `extractCommunityId` (twitter-api.js lines 222-227): the digits after
`\/communities\/` (no host in this regex). -/
def extractCommunityId (s : String) : Option String :=
  (searchPos
    (fun l =>
      match stripLit "/communities/".data l with
      | none => none
      | some l1 =>
        match many1 Char.isDigit l1 with
        | none => none
        | some (ds, _) => some ds) s.data).map (fun ds => String.mk ds)

/-- The `type` tag of the extracted Twitter info. -/
inductive TwType where
  | tweet
  | community
  deriving DecidableEq

/-- The result record of `extractTwitterInfo` (metadata-parser.js lines
96-100). -/
structure TwitterInfo where
  tweetUrl : Option String
  communityUrl : Option String
  type : Option TwType
  deriving DecidableEq

/-- The all-null initial result. -/
def emptyInfo : TwitterInfo := { tweetUrl := none, communityUrl := none, type := none }

/-- The field loop of `extractTwitterInfo` (metadata-parser.js lines
144-169): a tweet match sets the tweet URL and the type and BREAKS (tweet
priority over community); a community match sets the community URL and the
type when still unset; a bare profile URL is the same fallback, only taken
when no community URL is recorded yet.  Non-string fields are skipped. -/
def scanFields : TwitterInfo → List (Option String) → TwitterInfo
  | res, [] => res
  | res, none :: rest => scanFields res rest
  | res, some f :: rest =>
    if isTweetUrl f then { res with tweetUrl := some f, type := some TwType.tweet }
    else
      let res1 := if isCommunityUrl f then
          { res with
            communityUrl := some f
            type := if res.type.isNone then some TwType.community else res.type }
        else res
      let res2 := if res1.communityUrl.isNone && isProfileUrl f then
          { res1 with
            communityUrl := some f
            type := if res1.type.isNone then some TwType.community else res1.type }
        else res1
      scanFields res2 rest

/-- `extractTwitterInfo` (metadata-parser.js lines 95-172), the metadata
document abstracted to its ordered list of checked candidate fields
(`fieldsToCheck`, lines 107-141). -/
def extractTwitterInfo (fields : List (Option String)) : TwitterInfo :=
  scanFields emptyInfo fields

/-- A resolved creator identity (twitter-api.js). -/
structure SCreator where
  twitterHandle : String
  twitterId : String
  twitterName : String
  twitterProfileUrl : String
  deriving DecidableEq

/-- The external twitterapi.io lookups: tweet author by tweet id, first
community moderator by community id; `.error` models a thrown lookup. -/
structure TwApi where
  tweetAuthor : String → Except Unit SCreator
  communityModerator : String → Except Unit SCreator

/-- `identifyCreator` (twitter-api.js lines 142-185): for a tweet, extract
the tweet id and resolve the post's author; for a community, extract the
community id and resolve the first moderator; an unextractable id throws. -/
def identifyCreator (api : TwApi) (url : String) (t : TwType) : Except Unit SCreator :=
  match t with
  | TwType.tweet =>
    match extractTweetId url with
    | none => .error ()
    | some tid => api.tweetAuthor tid
  | TwType.community =>
    match extractCommunityId url with
    | none => .error ()
    | some cid => api.communityModerator cid

theorem scanFields_tweet (res : TwitterInfo) (fields : List (Option String))
    (h : ∃ f, some f ∈ fields ∧ isTweetUrl f = true) :
    (scanFields res fields).type = some TwType.tweet
    ∧ ∃ u, (scanFields res fields).tweetUrl = some u ∧ isTweetUrl u = true := by
  induction fields generalizing res with
  | nil =>
    obtain ⟨f, hf, _⟩ := h
    simp at hf
  | cons fo rest ih =>
    cases fo with
    | none =>
      obtain ⟨f, hf, htw⟩ := h
      have hf' : some f ∈ rest := by
        rcases List.mem_cons.mp hf with he | hm
        · exact absurd he (by simp)
        · exact hm
      exact ih res ⟨f, hf', htw⟩
    | some s =>
      by_cases hts : isTweetUrl s = true
      · unfold scanFields
        rw [if_pos hts]
        exact ⟨rfl, s, rfl, hts⟩
      · obtain ⟨f, hf, htw⟩ := h
        have hf' : some f ∈ rest := by
          rcases List.mem_cons.mp hf with he | hm
          · have : f = s := by simpa using he
            exact absurd (this ▸ htw) hts
          · exact hm
        unfold scanFields
        rw [if_neg hts]
        exact ih _ ⟨f, hf', htw⟩

/-- C8: whenever the scanned metadata fields contain both a tweet URL and a
community/group URL, extraction selects the direct post: the info has type
tweet and keeps a tweet URL; the tweet id is extractable from that URL; and
`identifyCreator` resolves the POST AUTHOR — it reduces to the tweet-author
lookup applied to that id, never the community-moderator lookup. -/
theorem C8_tweet_priority (fields : List (Option String)) (api : TwApi)
    (htw : ∃ f, some f ∈ fields ∧ isTweetUrl f = true)
    (hcm : ∃ g, some g ∈ fields ∧ isCommunityUrl g = true) :
    (extractTwitterInfo fields).type = some TwType.tweet
    ∧ ∃ url tid, (extractTwitterInfo fields).tweetUrl = some url
        ∧ isTweetUrl url = true
        ∧ extractTweetId url = some tid
        ∧ identifyCreator api url TwType.tweet = api.tweetAuthor tid := by
  obtain ⟨htype, u, hu, hut⟩ := scanFields_tweet emptyInfo fields htw
  refine ⟨htype, u, ?_⟩
  unfold isTweetUrl at hut
  cases hs : tweetSearch u with
  | none => rw [hs] at hut; simp at hut
  | some ds =>
    refine ⟨String.mk ds, hu, by unfold isTweetUrl; rw [hs]; rfl, ?_, ?_⟩
    · unfold extractTweetId
      rw [hs]
      rfl
    · unfold identifyCreator
      rw [show extractTweetId u = some (String.mk ds) by unfold extractTweetId; rw [hs]; rfl]

/-- Concrete metadata fields holding a community URL first and a tweet URL
second. -/
def fieldsBoth : List (Option String) :=
  [some "https://x.com/i/communities/123",
   some "https://twitter.com/alice/status/456", none]

/-- A concrete Twitter API whose author lookup echoes the tweet id. -/
def apiW : TwApi :=
  ⟨fun tid => .ok
      { twitterHandle := tid
        twitterId := tid
        twitterName := tid
        twitterProfileUrl := tid },
   fun _ => .error ()⟩

/-- Witness for C8: on the concrete two-URL metadata the extraction picks
the tweet and the resolver reduces to the author lookup. -/
theorem C8_tweet_priority_witness :
    (extractTwitterInfo fieldsBoth).type = some TwType.tweet
    ∧ ∃ url tid, (extractTwitterInfo fieldsBoth).tweetUrl = some url
        ∧ isTweetUrl url = true
        ∧ extractTweetId url = some tid
        ∧ identifyCreator apiW url TwType.tweet = apiW.tweetAuthor tid :=
  C8_tweet_priority fieldsBoth apiW
    ⟨"https://twitter.com/alice/status/456", by decide, by decide⟩
    ⟨"https://x.com/i/communities/123", by decide, by decide⟩

-- ============================================================
-- C7 : resolution failure handling (creator-tracker.js)
-- ============================================================

/-- Environment of `processCoin`: the on-chain metadata URI per mint (`none`
covers both a missing URI and a thrown RPC call — the surrounding catch
turns both into the same null result), the fetched metadata document per
URI abstracted to its candidate fields (`none` models a fetch/parse failure,
which `getTwitterInfoFromUri` turns into the empty info), and the Twitter
API. -/
structure ResolveEnv where
  metadataUri : String → Option String
  metadataFields : String → Option (List (Option String))
  api : TwApi

/-- `getTwitterInfoFromUri` (metadata-parser.js lines 179-195): a fetch or
parse failure yields the all-null info. -/
def getTwitterInfoFromUri (env : ResolveEnv) (uri : String) : TwitterInfo :=
  match env.metadataFields uri with
  | none => emptyInfo
  | some fields => extractTwitterInfo fields

/-- The non-null result of `processCoin`. -/
structure ProcessedCoin where
  coin : Coin
  twitterUrl : String
  twitterType : TwType
  creator : SCreator
  deriving DecidableEq

/-- `processCoin` (creator-tracker.js lines 28-82): no metadata URI → null;
no Twitter signal in the metadata (`!twitterInfo.type`) → null; the chosen
URL is `twitterInfo.tweetUrl || twitterInfo.communityUrl`; a throwing
`identifyCreator` is caught → null. -/
def processCoin (env : ResolveEnv) (c : Coin) : Option ProcessedCoin :=
  match env.metadataUri c.mint with
  | none => none
  | some uri =>
    let info := getTwitterInfoFromUri env uri
    match info.type with
    | none => none
    | some t =>
      match info.tweetUrl.or info.communityUrl with
      | none => none
      | some url =>
        match identifyCreator env.api url t with
        | .error _ => none
        | .ok cr => some { coin := c, twitterUrl := url, twitterType := t, creator := cr }

/-- Row of the creator-pipeline `creators` table (identity columns). -/
structure SCreatorRow where
  twitter_handle : String
  twitter_id : String
  twitter_name : String
  twitter_profile_url : String
  deriving DecidableEq

/-- Creator-pipeline database: `creators` and `coins`
(schema-creator.sql). -/
structure SDB where
  creators : List SCreatorRow
  coins : List SCoinRow
  deriving DecidableEq

/-- `saveCreator` (creator-tracker.js lines 89-118): upsert keyed by the
Twitter handle, the conflict branch refreshing the identity columns. -/
def saveCreator (t : List SCreatorRow) (cr : SCreator) : List SCreatorRow :=
  let row : SCreatorRow :=
    { twitter_handle := cr.twitterHandle
      twitter_id := cr.twitterId
      twitter_name := cr.twitterName
      twitter_profile_url := cr.twitterProfileUrl }
  if ∃ r ∈ t, r.twitter_handle = cr.twitterHandle then
    t.map (fun r => if r.twitter_handle = cr.twitterHandle then row else r)
  else t ++ [row]

/-- `saveCoin` (creator-tracker.js lines 125-175) on the modelled columns:
upsert keyed by mint; of the modelled columns the conflict branch updates
only `is_migrated`, keeping the stored creator link. -/
def saveCoin (t : List SCoinRow) (row : SCoinRow) : List SCoinRow :=
  if ∃ r ∈ t, r.mint = row.mint then
    t.map (fun r => if r.mint = row.mint then { r with is_migrated := row.is_migrated }
      else r)
  else t ++ [row]

/-- The `{success: ...}` result value of `processAndSaveCoin`. -/
structure SaveResult where
  success : Bool
  deriving DecidableEq

/-- `processAndSaveCoin` (creator-tracker.js lines 242-275): when
`processCoin` yields null the function returns `{success: false}` WITHOUT
touching the database — the coin is not saved; otherwise it saves the
creator, saves the coin with the creator link, and reports success (the
statistics recomputation it then triggers is `updateCreatorStats`, modelled
separately — it writes no coin rows).  The outer try/catch makes every path
return a result value rather than propagate an exception. -/
def processAndSaveCoin (env : ResolveEnv) (sdb : SDB) (c : Coin) : SaveResult × SDB :=
  match processCoin env c with
  | none => ({ success := false }, sdb)
  | some p =>
    let creators1 := saveCreator sdb.creators p.creator
    let coins1 := saveCoin sdb.coins
      { mint := p.coin.mint
        symbol := p.coin.symbol
        creator_twitter_handle := some p.creator.twitterHandle
        created_timestamp := p.coin.created_timestamp
        is_migrated := p.coin.complete }
    ({ success := true }, { creators := creators1, coins := coins1 })

/-- A resolution environment in which no mint has a metadata URI. -/
def envNoMeta : ResolveEnv :=
  { metadataUri := fun _ => none
    metadataFields := fun _ => none
    api := ⟨fun _ => .error (), fun _ => .error ()⟩ }

/-- The empty creator-pipeline database. -/
def sdb0 : SDB := { creators := [], coins := [] }

/-- C7 counterexample: when identity resolution fails (here: no metadata
URI), `processAndSaveCoin` returns a failure result and the database is
unchanged — the coin is NOT recorded in storage, contradicting the claim
that it is stored without a creator link. -/
theorem C7_failed_resolution_drops_coin :
    processAndSaveCoin envNoMeta sdb0 coinX = ({ success := false }, sdb0)
    ∧ (processAndSaveCoin envNoMeta sdb0 coinX).2.coins = [] := ⟨rfl, rfl⟩

/-- C7 amended: every identity-resolution failure in social mode — missing
metadata URI, no social-network signal in the fetched metadata, or a
throwing upstream lookup — is non-fatal to the caller, which receives a
plain `{success: false}` value; but the coin is then NOT recorded: the
database comes back exactly as it was, with no creator-less coin row. -/
theorem C7_resolution_failure_amended :
    (∀ (env : ResolveEnv) (sdb : SDB) (c : Coin), processCoin env c = none →
      processAndSaveCoin env sdb c = ({ success := false }, sdb))
    ∧ (∀ (env : ResolveEnv) (c : Coin), env.metadataUri c.mint = none →
        processCoin env c = none)
    ∧ (∀ (env : ResolveEnv) (c : Coin) (uri : String),
        env.metadataUri c.mint = some uri →
        (getTwitterInfoFromUri env uri).type = none →
        processCoin env c = none)
    ∧ (∀ (env : ResolveEnv) (c : Coin) (uri url : String) (t : TwType),
        env.metadataUri c.mint = some uri →
        (getTwitterInfoFromUri env uri).type = some t →
        (getTwitterInfoFromUri env uri).tweetUrl.or
            (getTwitterInfoFromUri env uri).communityUrl = some url →
        identifyCreator env.api url t = .error () →
        processCoin env c = none) := by
  refine ⟨?_, ?_, ?_, ?_⟩
  · intro env sdb c h
    unfold processAndSaveCoin
    rw [h]
  · intro env c h
    unfold processCoin
    rw [h]
  · intro env c uri h1 h2
    unfold processCoin
    rw [h1]
    simp only [h2]
  · intro env c uri url t h1 h2 h3 h4
    unfold processCoin
    rw [h1]
    simp only [h2, h3, h4]

/-- Witness for C7's amended statement: the no-metadata environment fails to
resolve `coinX`, the caller sees `{success: false}`, and storage is
untouched. -/
theorem C7_resolution_failure_amended_witness :
    processAndSaveCoin envNoMeta sdb0 coinX = ({ success := false }, sdb0)
    ∧ processCoin envNoMeta coinX = none :=
  ⟨C7_resolution_failure_amended.1 envNoMeta sdb0 coinX (by rfl),
   C7_resolution_failure_amended.2.1 envNoMeta coinX (by rfl)⟩

end Padre
